import Mathlib

/-! # AoC C++ utilities: `Dijkstra` and `numericGrid`

A shallow embedding of `include/dijkstra/dijkstra.h` and
`include/util/numericGrid.h`, together with the sample graph of
`test/dijkstra/sampleGraph.h`, and the properties proved about them.

Modelling conventions

* `Key` is an unsigned machine integer: a natural number, with
  `std::numeric_limits<Key>::max()` passed as `keyMax`.
* The node type `T` is arbitrary; its `next()`, `completed()` and its
  default-constructed value are bundled in `DijkstraNode T`.
* `std::priority_queue<heap_t>` is modelled by its contract: the stored
  entries are a list, `top()` is an entry that is not smaller (under
  `heap_t::operator<`) than any other, `pop()` removes it. The executable
  model breaks ties in favour of the entry stored first; the relation `Iter`
  allows any tie-break.
* The memory arenas are not modelled: the node payload of an entry is the
  node value itself.
-/

namespace AoC

/-! ## `dijkstra.h` -/

/-- The operations the concept `DijkstraNode` requires of a node type:
`next()`, `completed()` and the default-constructed node `T{}`. -/
structure DijkstraNode (T : Type) where
  next : T → List (Nat × T)
  completed : T → Bool
  dflt : T

/-- The comparison `heap_t::operator<`: `return o.first < first;`. -/
def heap_t.lt {T : Type} (self o : Nat × T) : Bool :=
  decide (o.1 < self.1)

/-- The contract of `std::priority_queue::top` followed by `pop` for a
comparison `lt`: splits the stored entries into a greatest one and the others.
Of several greatest entries the first stored is taken. -/
def extractTop {α : Type} (lt : α → α → Bool) : List α → Option (α × List α)
  | [] => none
  | x :: xs =>
    match extractTop lt xs with
    | none => some (x, [])
    | some (y, ys) => if lt x y then some (y, x :: ys) else some (x, xs)

/-- The data members of `Dijkstra<T, Key, Complexity, ExtraMem>`. -/
structure Dijkstra (T : Type) where
  m_lowest : Nat
  m_winner : T
  m_heap : List (Nat × T)

variable {T : Type}

/-- The member function `push`: the node is moved to the payload storage and
the entry `(cost, node)` is added to the priority queue. -/
def Dijkstra.push (s : Dijkstra T) (cost : Nat) (n : T) : Dijkstra T :=
  { s with m_heap := s.m_heap ++ [(cost, n)] }

/-- The constructor `Dijkstra(T node, Key k)`: `m_lowest` is the maximum of
`Key`, `m_winner` the default node, and the body pushes the start node. -/
def Dijkstra.init (N : DijkstraNode T) (keyMax : Nat) (node : T) (k : Nat) : Dijkstra T :=
  Dijkstra.push { m_lowest := keyMax, m_winner := N.dflt, m_heap := [] } k node

/-- The body of the loop `for (auto &n : next)` of `solve`, for one successor. -/
def Dijkstra.visit (N : DijkstraNode T) (s : Dijkstra T) (n : Nat × T) : Dijkstra T :=
  if n.1 > s.m_lowest then s
  else if N.completed n.2 then
    if n.1 < s.m_lowest then { s with m_lowest := n.1, m_winner := n.2 } else s
  else s.push n.1 n.2

/-- The body of the loop `while (!m_heap.empty())` of `solve` once the top
entry `ne` has been chosen: `next()` is called on its node, the entry is
popped (`rest` is what remains) and every successor is visited in order. -/
def Dijkstra.expand (N : DijkstraNode T) (s : Dijkstra T) (ne : Nat × T)
    (rest : List (Nat × T)) : Dijkstra T :=
  (N.next ne.2).foldl (Dijkstra.visit N) { s with m_heap := rest }

/-- The member function `solve`. `fuel` bounds the number of iterations of the
`while` loop; `none` means the bound was reached before the queue was empty. -/
def Dijkstra.solve (N : DijkstraNode T) : Nat → Dijkstra T → Option (Nat × T)
  | 0, _ => none
  | fuel + 1, s =>
    match extractTop heap_t.lt s.m_heap with
    | none => some (s.m_lowest, s.m_winner)
    | some (ne, rest) => Dijkstra.solve N fuel (s.expand N ne rest)

/-- The successors returned by the calls of `next()` that `solve` makes, in
the order in which the loops of `solve` meet them (`solve` with the state
changes left as they are and the successors logged). -/
def Dijkstra.generated (N : DijkstraNode T) : Nat → Dijkstra T → List (Nat × T)
  | 0, _ => []
  | fuel + 1, s =>
    match extractTop heap_t.lt s.m_heap with
    | none => []
    | some (ne, rest) => N.next ne.2 ++ Dijkstra.generated N fuel (s.expand N ne rest)

/-- One iteration of the `while` loop of `solve` for an arbitrary
implementation of the priority queue: any entry that no other entry precedes
under `heap_t::operator<` may be the top. -/
def Iter (N : DijkstraNode T) (s s' : Dijkstra T) : Prop :=
  ∃ ne rest, List.Perm (ne :: rest) s.m_heap ∧
    (∀ x ∈ s.m_heap, heap_t.lt ne x = false) ∧ s' = s.expand N ne rest

/-- Finitely many iterations of the `while` loop. -/
inductive Run (N : DijkstraNode T) : Dijkstra T → Dijkstra T → Prop
  | refl (s : Dijkstra T) : Run N s s
  | step {s s' s'' : Dijkstra T} : Iter N s s' → Run N s' s'' → Run N s s''

/-- Two states with the same `m_lowest` and `m_winner` whose queues hold the
same entries, whatever their internal order. -/
def Dijkstra.Equiv (s t : Dijkstra T) : Prop :=
  s.m_lowest = t.m_lowest ∧ s.m_winner = t.m_winner ∧ List.Perm s.m_heap t.m_heap

/-- Whether `solve` finishes within `fuel` iterations without ever finding two
queued entries that tie for the lowest cost. -/
def Dijkstra.noTies (N : DijkstraNode T) : Nat → Dijkstra T → Bool
  | 0, _ => false
  | fuel + 1, s =>
    match extractTop heap_t.lt s.m_heap with
    | none => true
    | some (ne, rest) =>
      rest.all (fun x => decide (ne.1 < x.1)) && Dijkstra.noTies N fuel (s.expand N ne rest)

/-- Successors of the start node: `Reach N start c n` holds when the pair
`(c, n)` is returned by `next()` of the start node or of a node that is itself
reachable, i.e. after one or more expansion steps. -/
inductive Reach (N : DijkstraNode T) (start : T) : Nat → T → Prop
  | first {c : Nat} {n : T} : (c, n) ∈ N.next start → Reach N start c n
  | step {c c' : Nat} {n n' : T} :
      Reach N start c n → (c', n') ∈ N.next n → Reach N start c' n'

/-- Descendants through nodes that are not goals: `Desc N n c g` holds when
`(c, g)` is returned by `next()` of `n`, or of a descendant of `n` that is not
completed. These are the successors the search can generate from `n`. -/
inductive Desc (N : DijkstraNode T) : T → Nat → T → Prop
  | one {n : T} {c : Nat} {g : T} : (c, g) ∈ N.next n → Desc N n c g
  | cons {n m : T} {c1 c : Nat} {g : T} :
      (c1, m) ∈ N.next n → N.completed m = false → Desc N m c g → Desc N n c g

/-- The part of the invariant of the loop of `solve`, for a search started at
`start`, that holds for every node type:
* `m_lowest` and `m_winner` are as constructed, or a completed successor
  generated by the search together with its cost;
* every queued entry is the start node or a generated successor that is not
  completed. -/
structure Inv (N : DijkstraNode T) (keyMax : Nat) (start : T) (s : Dijkstra T) : Prop where
  att : (s.m_lowest = keyMax ∧ s.m_winner = N.dflt) ∨
    (s.m_lowest < keyMax ∧ Desc N start s.m_lowest s.m_winner ∧
      N.completed s.m_winner = true)
  src : ∀ e ∈ s.m_heap, e.2 = start ∨ (Desc N start e.1 e.2 ∧ N.completed e.2 = false)

/-- The part of the invariant that needs costs that never decrease: every
completed successor the search can generate costs at least `m_lowest`, or
descends from a queued entry. -/
def Cover (N : DijkstraNode T) (start : T) (s : Dijkstra T) : Prop :=
  ∀ c g, Desc N start c g → N.completed g = true →
    s.m_lowest ≤ c ∨ ∃ e ∈ s.m_heap, Desc N e.2 c g

/-- A small node type used to instantiate the general theorems: node `0` has
the successors `1` (cost 4) and `2` (cost 1), node `1` the successor `3`
(cost 5), node `2` the successors `3` and `4` (cost 3 each); the nodes from `3`
on are completed and have no successor. -/
def tinyNode : DijkstraNode Nat :=
  { next := fun n =>
      match n with
      | 0 => [(4, 1), (1, 2)]
      | 1 => [(5, 3)]
      | 2 => [(3, 3), (3, 4)]
      | _ => []
    completed := fun n => decide (3 ≤ n)
    dflt := 0 }

/-- The entries that `solve` takes from the queue and expands, in order
(`solve` with the expanded entries logged). -/
def Dijkstra.expanded (N : DijkstraNode T) : Nat → Dijkstra T → List (Nat × T)
  | 0, _ => []
  | fuel + 1, s =>
    match extractTop heap_t.lt s.m_heap with
    | none => []
    | some (ne, rest) => ne :: Dijkstra.expanded N fuel (s.expand N ne rest)

/-- The entries that the loop of `solve` adds to the queue by `push`, in order:
in each iteration the entries that the queue holds behind the ones that were
left after `pop`. -/
def Dijkstra.pushed (N : DijkstraNode T) : Nat → Dijkstra T → List (Nat × T)
  | 0, _ => []
  | fuel + 1, s =>
    match extractTop heap_t.lt s.m_heap with
    | none => []
    | some (ne, rest) =>
      (s.expand N ne rest).m_heap.drop rest.length ++
        Dijkstra.pushed N fuel (s.expand N ne rest)

/-- The states in which `solve` tests `m_heap.empty()`, in order. -/
def Dijkstra.states (N : DijkstraNode T) : Nat → Dijkstra T → List (Dijkstra T)
  | 0, _ => []
  | fuel + 1, s =>
    s :: match extractTop heap_t.lt s.m_heap with
      | none => []
      | some (ne, rest) => Dijkstra.states N fuel (s.expand N ne rest)

/-- The number of queued entries at every point of `solve`: when
`m_heap.empty()` is tested, after `pop()` and after every visited successor. -/
def Dijkstra.heapSizes (N : DijkstraNode T) : Nat → Dijkstra T → List Nat
  | 0, _ => []
  | fuel + 1, s =>
    s.m_heap.length :: match extractTop heap_t.lt s.m_heap with
      | none => []
      | some (ne, rest) =>
        ((N.next ne.2).scanl (Dijkstra.visit N) { s with m_heap := rest }).map
            (fun t => t.m_heap.length) ++
          Dijkstra.heapSizes N fuel (s.expand N ne rest)

/-- The successors that pass the pruning and goal tests, as the description of
the algorithm puts it: a successor above the lowest cost is discarded, a goal
is discarded after lowering the lowest cost if it is cheaper, any other
successor is kept. `low` is the lowest cost before the first successor. -/
def keptSuccessors (N : DijkstraNode T) : Nat → List (Nat × T) → List (Nat × T)
  | _, [] => []
  | low, n :: l =>
    if low < n.1 then keptSuccessors N low l
    else if N.completed n.2 then keptSuccessors N (min low n.1) l
    else n :: keptSuccessors N low l

/-- The pairing of `m_lowest` and `m_winner`: they are as constructed, or
`m_winner` is a completed successor generated by the search with cost
`m_lowest`, below the maximum of `Key`. -/
def Paired (N : DijkstraNode T) (keyMax : Nat) (start : T) (s : Dijkstra T) : Prop :=
  (s.m_lowest = keyMax ∧ s.m_winner = N.dflt) ∨
    (s.m_lowest < keyMax ∧ Desc N start s.m_lowest s.m_winner ∧
      N.completed s.m_winner = true)

/-- Every queued entry is the entry of the start node or a pair returned by
`next()` after one or more expansion steps. -/
def Sourced (N : DijkstraNode T) (start : T) (k : Nat) (s : Dijkstra T) : Prop :=
  ∀ e ∈ s.m_heap, e = (k, start) ∨ Reach N start e.1 e.2

/-- A bound on the number of expansions below a node: the size of the tree of
expansions of depth at most `d` under the node. -/
def weight (N : DijkstraNode T) : Nat → T → Nat
  | 0, _ => 1
  | d + 1, n => 1 + ((N.next n).map (fun p => weight N d p.2)).sum

/-- A bound on the number of iterations `solve` still makes: every queued
entry counts with the tree of expansions that fits between its cost and the
maximum of `Key`. -/
def Dijkstra.work (N : DijkstraNode T) (keyMax : Nat) (s : Dijkstra T) : Nat :=
  (s.m_heap.map (fun e => weight N (keyMax - e.1) e.2)).sum

/-- A node type without progress: the only node is never completed and its
`next()` returns the node itself with cost 0. -/
def stuckNode : DijkstraNode Unit :=
  { next := fun _ => [(0, ())]
    completed := fun _ => false
    dflt := () }

/-- A node type over a cyclic graph: three places on a ring, a node is a place
together with the cost spent so far; from every place one step along the ring
costs 1 and two steps cost 2; place 2 is the goal. -/
def ringNode : DijkstraNode (Nat × Nat) :=
  { next := fun n => [(n.2 + 1, ((n.1 + 1) % 3, n.2 + 1)), (n.2 + 2, ((n.1 + 2) % 3, n.2 + 2))]
    completed := fun n => decide (n.1 = 2)
    dflt := (0, 0) }

/-- A node type with a tie: the start node `0` has the successors `1` and `2`,
both of cost 1; node `1` has the goal `3` and node `2` the goal `4`, both of
cost 2. -/
def tieNode : DijkstraNode Nat :=
  { next := fun n =>
      match n with
      | 0 => [(1, 1), (1, 2)]
      | 1 => [(2, 3)]
      | 2 => [(2, 4)]
      | _ => []
    completed := fun n => decide (3 ≤ n)
    dflt := 0 }

/-- A node type with a successor that is cheaper than its parent: the start
node `0` has, in this order, the goal `1` of cost 5 and the successor `2` of
cost 10, which is not a goal and whose only successor is the goal `3` of
cost 3. -/
def dipNode : DijkstraNode Nat :=
  { next := fun n =>
      match n with
      | 0 => [(5, 1), (10, 2)]
      | 2 => [(3, 3)]
      | _ => []
    completed := fun n => n == 1 || n == 3
    dflt := 0 }

/-! ## `sampleGraph.h` -/

/-- The member `Graph::distances` as filled by the constructor `Graph()`.
A `std::map` is iterated in ascending key order, so every inner map is listed
by destination name in that order. -/
def Graph.distances : List (String × List (String × Nat)) :=
  [ ("Berlin", [("Dortmund", 491), ("Essen", 530), ("Stuttgart", 630)]),
    ("Bremen", [("Berlin", 390), ("Essen", 248), ("Mannheim", 512)]),
    ("Dortmund", [("Berlin", 492), ("Bremen", 234), ("Mannheim", 294)]),
    ("Essen", [("Bremen", 255), ("Dortmund", 38), ("Stuttgart", 430)]),
    ("Mannheim", [("Berlin", 624), ("Essen", 310), ("Stuttgart", 140)]),
    ("Stuttgart", [("Bremen", 638), ("Dortmund", 417), ("Mannheim", 133)]) ]

/-- The lookup `g->distances[last]`; a missing key yields the empty map. -/
def Graph.at (g : List (String × List (String × Nat))) (city : String) :
    List (String × Nat) :=
  match g.find? (fun p => p.1 == city) with
  | some p => p.2
  | none => []

/-- The struct `Node` of the sample (the pointer `g` always refers to the one
sample graph and is left out). -/
structure Node where
  last : String
  route : List String
  costs : Nat
deriving DecidableEq

/-- The default member initialisers of `Node`, also the start node of the test. -/
def Node.default : Node := { last := "Mannheim", route := [], costs := 0 }

/-- The member `Node::next`; `costs` is a `uint32_t`. -/
def Node.next (self : Node) : List (Nat × Node) :=
  if self.last == "Bremen" then []
  else (Graph.at Graph.distances self.last).map fun n =>
    let node : Node :=
      { last := n.1, costs := (self.costs + n.2) % 2 ^ 32, route := self.route ++ [self.last] }
    (node.costs, node)

/-- The member `Node::completed`. -/
def Node.completed (self : Node) : Bool := self.last == "Bremen"

/-- The sample `Node` as a `DijkstraNode`. -/
def sampleNode : DijkstraNode Node :=
  { next := Node.next, completed := Node.completed, dflt := Node.default }

/-- The maximum of `uint32_t`, the `Key` of the test. -/
def uint32Max : Nat := 2 ^ 32 - 1

/-! ## `numericGrid.h` -/

/-- The global `operator>>(std::istream&, std::vector<uint_fast8_t>&)`: while
the stream has a character, `is.get() - '0'` is appended to the vector. The
stream is the list of the character codes (0 to 255) still to be read;
`uint_fast8_t` is an unsigned 8-bit integer. -/
def readRow : List Nat → List Nat → List Nat
  | [], vec => vec
  | c :: is, vec => readRow is (vec ++ [(c + 256 - 48) % 256])

/-- The call `std::getline(is, line)`: the characters up to the next newline
(code 10) or the end of the stream become the line, the newline is consumed;
`none` when the stream has no character left (the call fails). The second
component is the rest of the stream. -/
def getline : List Nat → Option (List Nat × List Nat)
  | [] => none
  | c :: is =>
    if c = 10 then some ([], is)
    else
      match getline is with
      | none => some ([c], [])
      | some (line, rest) => some (c :: line, rest)

/-- The class `numericGrid<uint_fast8_t>`: its only data member. -/
structure numericGrid where
  m_grid : List (List Nat)
deriving DecidableEq

/-- The loop `while (std::getline(is, line))` of
`operator>>(std::istream&, numericGrid&)`; `fuel` bounds the number of calls
of `getline`, `none` means the bound was reached. -/
def numericGrid.readLoop : Nat → List Nat → List (List Nat) → Option (List (List Nat))
  | 0, _, _ => none
  | fuel + 1, is, m_grid =>
    match getline is with
    | none => some m_grid
    | some (line, rest) => numericGrid.readLoop fuel rest (m_grid ++ [readRow line []])

/-- The friend `operator>>(std::istream&, numericGrid&)`. Every successful
`getline` but possibly the last consumes a character, so one call more than
the stream has characters is enough. -/
def numericGrid.read (is : List Nat) (map : numericGrid) : Option numericGrid :=
  (numericGrid.readLoop (is.length + 1) is map.m_grid).map fun g => { m_grid := g }

/-- The member `size()`. The cells are stored, so the product is below the
size of the address space. -/
def numericGrid.size (g : numericGrid) : Nat :=
  match g.m_grid with
  | [] => 0
  | row0 :: _ => g.m_grid.length * row0.length

/-- The member `rows()`. -/
def numericGrid.rows (g : numericGrid) : Nat := g.m_grid.length

/-- The member `columns()`. -/
def numericGrid.columns (g : numericGrid) : Nat :=
  match g.m_grid with
  | [] => 0
  | row0 :: _ => row0.length

/-- The data members of `numericGrid::Iterator`. An iterator into the vector
of rows is the index of the row; an iterator into a row is the pair of the
index of the row and the offset in it. -/
structure numericGrid.Iterator where
  m_rowsIt : Nat
  m_rowsEnd : Nat
  m_cIt : Nat × Nat
  m_cEnd : Nat × Nat
deriving DecidableEq

/-- The member `begin()`, i.e. the constructor `Iterator(numericGrid<T> *)`.
It reads the first row; `none` when there is none (undefined behaviour). -/
def numericGrid.begin (g : numericGrid) : Option numericGrid.Iterator :=
  match g.m_grid with
  | [] => none
  | row0 :: _ =>
    some { m_rowsIt := 0, m_rowsEnd := g.m_grid.length, m_cIt := (0, 0),
           m_cEnd := (0, row0.length) }

/-- The comparison `Iterator::operator==(std::default_sentinel_t)`. -/
def numericGrid.Iterator.atEnd (it : numericGrid.Iterator) : Bool :=
  it.m_rowsIt == it.m_rowsEnd && it.m_cIt == it.m_cEnd

/-- The member `Iterator::operator*`: the cell `m_cIt` points at; `none` when
it does not point at a cell. -/
def numericGrid.Iterator.deref (g : numericGrid) (it : numericGrid.Iterator) : Option Nat :=
  match g.m_grid[it.m_cIt.1]? with
  | none => none
  | some row => row[it.m_cIt.2]?

/-- The member `Iterator::operator++()`. -/
def numericGrid.Iterator.next (g : numericGrid) (it : numericGrid.Iterator) :
    numericGrid.Iterator :=
  let cIt := (it.m_cIt.1, it.m_cIt.2 + 1)
  if cIt = it.m_cEnd then
    let rowsIt := it.m_rowsIt + 1
    if rowsIt ≠ it.m_rowsEnd then
      { it with m_rowsIt := rowsIt, m_cIt := (rowsIt, 0),
                m_cEnd := (rowsIt, (g.m_grid.getD rowsIt []).length) }
    else { it with m_rowsIt := rowsIt, m_cIt := cIt }
  else { it with m_cIt := cIt }

/-- The loop of `std::ranges::copy(grid, std::back_inserter(tmp))` from the
iterator `it` on: until the iterator equals the end sentinel, the cell it points
at is appended and the iterator incremented. `fuel` bounds the number of
comparisons with the sentinel; `none` means that the bound was reached or that
the iterator was dereferenced where it points at no cell. -/
def numericGrid.copyFrom (g : numericGrid) :
    Nat → numericGrid.Iterator → List Nat → Option (List Nat)
  | 0, _, _ => none
  | fuel + 1, it, tmp =>
    if it.atEnd then some tmp
    else
      match it.deref g with
      | none => none
      | some v => numericGrid.copyFrom g fuel (it.next g) (tmp ++ [v])

/-- The call `std::ranges::copy(grid, std::back_inserter(tmp))` for an empty
`tmp`. -/
def numericGrid.copy (g : numericGrid) (fuel : Nat) : Option (List Nat) :=
  match g.begin with
  | none => none
  | some it => numericGrid.copyFrom g fuel it []

/-- The member `operator[](std::size_t idx)`: `m_grid[idx]`; `none` when there
is no such row (no bounds are checked, the access is undefined). -/
def numericGrid.row (g : numericGrid) (idx : Nat) : Option (List Nat) :=
  g.m_grid[idx]?

/-- The member `operator[](const std::pair<size_t, size_t> &idx)`:
`m_grid[idx.second][idx.first]`; `none` when there is no such cell. -/
def numericGrid.index (g : numericGrid) (idx : Nat × Nat) : Option Nat :=
  match g.m_grid[idx.2]? with
  | none => none
  | some row => row[idx.1]?

/-- The data members of `numericGrid::ColumnView`; the pointer `m_parent` is
the grid the view is used with. -/
structure numericGrid.ColumnView where
  m_column : Nat
deriving DecidableEq

/-- The member `column(std::size_t idx)`. -/
def numericGrid.column (_g : numericGrid) (idx : Nat) : numericGrid.ColumnView :=
  { m_column := idx }

/-- The data members of `numericGrid::ColumnView::Iterator`; an iterator into
the vector of rows is the index of the row. -/
structure numericGrid.ColumnView.Iterator where
  m_cIt : Nat
  m_end : Nat
  m_column : Nat
deriving DecidableEq

/-- The member `ColumnView::begin()`. -/
def numericGrid.ColumnView.begin (g : numericGrid) (v : numericGrid.ColumnView) :
    numericGrid.ColumnView.Iterator :=
  { m_cIt := 0, m_end := g.m_grid.length, m_column := v.m_column }

/-- The comparison `ColumnView::Iterator::operator==(std::default_sentinel_t)`. -/
def numericGrid.ColumnView.Iterator.atEnd (it : numericGrid.ColumnView.Iterator) : Bool :=
  it.m_cIt == it.m_end

/-- The member `ColumnView::Iterator::operator*`: `(*m_cIt)[m_column]`; `none`
when there is no such cell. -/
def numericGrid.ColumnView.Iterator.deref (g : numericGrid)
    (it : numericGrid.ColumnView.Iterator) : Option Nat :=
  match g.m_grid[it.m_cIt]? with
  | none => none
  | some row => row[it.m_column]?

/-- The member `ColumnView::Iterator::operator++()`. -/
def numericGrid.ColumnView.Iterator.next (it : numericGrid.ColumnView.Iterator) :
    numericGrid.ColumnView.Iterator :=
  { it with m_cIt := it.m_cIt + 1 }

/-- The loop of `std::ranges::copy(v, std::back_inserter(tmp))` for a column
view, from the iterator `it` on; `fuel` and `none` as for `copyFrom`. -/
def numericGrid.ColumnView.copyFrom (g : numericGrid) :
    Nat → numericGrid.ColumnView.Iterator → List Nat → Option (List Nat)
  | 0, _, _ => none
  | fuel + 1, it, tmp =>
    if it.atEnd then some tmp
    else
      match it.deref g with
      | none => none
      | some v => numericGrid.ColumnView.copyFrom g fuel it.next (tmp ++ [v])

/-- The call `std::ranges::copy(v, std::back_inserter(tmp))` for a column view
`v` of the grid `g` and an empty `tmp`. -/
def numericGrid.ColumnView.copy (g : numericGrid) (v : numericGrid.ColumnView)
    (fuel : Nat) : Option (List Nat) :=
  numericGrid.ColumnView.copyFrom g fuel (v.begin g) []

/-- The iterator states that a loop from `it` up to the end sentinel passes
through, in order: those that are compared unequal to the sentinel, each
followed by `operator++`. `fuel` bounds the number of comparisons. -/
def numericGrid.visited (g : numericGrid) :
    Nat → numericGrid.Iterator → List numericGrid.Iterator
  | 0, _ => []
  | fuel + 1, it =>
    if it.atEnd then [] else it :: numericGrid.visited g fuel (it.next g)

/-- The text of the lines `ls`, each terminated by a newline. -/
def unlines (ls : List (List Nat)) : List Nat :=
  (ls.map fun l => l ++ [10]).flatten

/-- The string `test_data` of `TEST(numericGrid, default)` as character codes. -/
def test_data : List Nat := "111\n222\n333\n444".toList.map Char.toNat

/-! ## Properties of the priority queue -/

theorem extractTop_eq_none {α : Type} (lt : α → α → Bool) (xs : List α) :
    extractTop lt xs = none ↔ xs = [] := by
  cases xs with
  | nil => simp [extractTop]
  | cons x xs =>
    simp only [extractTop]
    cases h : extractTop lt xs with
    | none => simp
    | some p => by_cases hlt : lt x p.1 = true <;> simp [hlt]

theorem extractTop_perm {α : Type} (lt : α → α → Bool) :
    ∀ (xs : List α) (e : α) (rest : List α),
      extractTop lt xs = some (e, rest) → List.Perm (e :: rest) xs := by
  intro xs
  induction xs with
  | nil => intro e rest h; simp [extractTop] at h
  | cons x xs ih =>
    intro e rest h
    simp only [extractTop] at h
    cases hx : extractTop lt xs with
    | none =>
      rw [hx] at h
      have hnil := (extractTop_eq_none lt xs).1 hx
      simp only [Option.some.injEq, Prod.mk.injEq] at h
      obtain ⟨rfl, rfl⟩ := h
      rw [hnil]
    | some p =>
      obtain ⟨y, ys⟩ := p
      rw [hx] at h
      have hp := ih y ys hx
      by_cases hlt : lt x y = true
      · simp only [hlt, if_true, Option.some.injEq, Prod.mk.injEq] at h
        obtain ⟨rfl, rfl⟩ := h
        exact (List.Perm.swap x y ys).trans (List.Perm.cons x hp)
      · simp only [hlt, Option.some.injEq, Prod.mk.injEq] at h
        obtain ⟨rfl, rfl⟩ := h
        exact List.Perm.refl _

theorem extractTop_min :
    ∀ (xs : List (Nat × T)) (e : Nat × T) (rest : List (Nat × T)),
      extractTop heap_t.lt xs = some (e, rest) → ∀ x ∈ xs, e.1 ≤ x.1 := by
  intro xs
  induction xs with
  | nil => intro e rest h; simp [extractTop] at h
  | cons x xs ih =>
    intro e rest h
    simp only [extractTop] at h
    cases hx : extractTop heap_t.lt xs with
    | none =>
      rw [hx] at h
      have hnil := (extractTop_eq_none heap_t.lt xs).1 hx
      simp only [Option.some.injEq, Prod.mk.injEq] at h
      obtain ⟨rfl, rfl⟩ := h
      intro z hz
      rw [hnil] at hz
      simp only [List.mem_singleton] at hz
      rw [hz]
    | some p =>
      obtain ⟨y, ys⟩ := p
      rw [hx] at h
      have hp := ih y ys hx
      by_cases hlt : heap_t.lt x y = true
      · simp only [hlt, if_true, Option.some.injEq, Prod.mk.injEq] at h
        obtain ⟨rfl, rfl⟩ := h
        have hyx : y.1 < x.1 := by simpa [heap_t.lt] using hlt
        intro z hz
        rcases List.mem_cons.1 hz with rfl | hz
        · exact Nat.le_of_lt hyx
        · exact hp z hz
      · simp only [hlt, Option.some.injEq, Prod.mk.injEq] at h
        obtain ⟨rfl, rfl⟩ := h
        have hxy : x.1 ≤ y.1 := by
          have : ¬ y.1 < x.1 := by simpa [heap_t.lt] using hlt
          omega
        intro z hz
        rcases List.mem_cons.1 hz with rfl | hz
        · exact Nat.le_refl _
        · exact Nat.le_trans hxy (hp z hz)

/-- The executable iteration is one of the iterations `Iter` allows. -/
theorem iter_of_extractTop (N : DijkstraNode T) (s : Dijkstra T) (ne : Nat × T)
    (rest : List (Nat × T)) (h : extractTop heap_t.lt s.m_heap = some (ne, rest)) :
    Iter N s (s.expand N ne rest) := by
  refine ⟨ne, rest, extractTop_perm _ _ _ _ h, ?_, rfl⟩
  intro x hx
  have := extractTop_min _ _ _ h x hx
  simp only [heap_t.lt, decide_eq_false_iff_not]
  omega

/-! ## Properties of one visited successor -/

theorem visit_above_lowest (N : DijkstraNode T) (s : Dijkstra T) (n : Nat × T)
    (h : n.1 > s.m_lowest) : s.visit N n = s := by
  simp [Dijkstra.visit, h]

theorem visit_lowest_le (N : DijkstraNode T) (s : Dijkstra T) (n : Nat × T) :
    (s.visit N n).m_lowest ≤ s.m_lowest := by
  unfold Dijkstra.visit
  split_ifs with h1 h2 h3
  · exact Nat.le_refl _
  · exact Nat.le_of_lt h3
  · exact Nat.le_refl _
  · exact Nat.le_refl _

theorem visit_cases (N : DijkstraNode T) (s : Dijkstra T) (n : Nat × T) :
    (s.visit N n = s ∧ (s.m_lowest < n.1 ∨ (N.completed n.2 = true ∧ n.1 = s.m_lowest))) ∨
    (s.visit N n = { s with m_lowest := n.1, m_winner := n.2 } ∧
      N.completed n.2 = true ∧ n.1 < s.m_lowest) ∨
    (s.visit N n = s.push n.1 n.2 ∧ N.completed n.2 = false ∧ n.1 ≤ s.m_lowest) := by
  unfold Dijkstra.visit
  by_cases h1 : n.1 > s.m_lowest
  · left; simp [h1]
  · by_cases h2 : N.completed n.2 = true
    · by_cases h3 : n.1 < s.m_lowest
      · right; left; simp [h1, h2, h3]
      · left
        simp only [h1, h2, h3, if_false, if_true, true_and]
        right; omega
    · right; right
      have h2' : N.completed n.2 = false := by simpa using h2
      simp only [h1, h2', if_false, true_and]
      constructor
      · simp
      · omega

theorem foldl_visit_lowest_le (N : DijkstraNode T) (l : List (Nat × T)) :
    ∀ s : Dijkstra T, (l.foldl (Dijkstra.visit N) s).m_lowest ≤ s.m_lowest := by
  induction l with
  | nil => intro s; exact Nat.le_refl _
  | cons n l ih =>
    intro s
    exact Nat.le_trans (ih (s.visit N n)) (visit_lowest_le N s n)

theorem iter_lowest_le (N : DijkstraNode T) (s s' : Dijkstra T) (h : Iter N s s') :
    s'.m_lowest ≤ s.m_lowest := by
  obtain ⟨ne, rest, _, _, rfl⟩ := h
  exact foldl_visit_lowest_le N _ _

theorem run_lowest_le (N : DijkstraNode T) (s s' : Dijkstra T) (h : Run N s s') :
    s'.m_lowest ≤ s.m_lowest := by
  induction h with
  | refl s => exact Nat.le_refl _
  | step hi _ ih => exact Nat.le_trans ih (iter_lowest_le N _ _ hi)

/-- What `solve` returns is the state of a finished run of the loop. -/
theorem solve_run (N : DijkstraNode T) :
    ∀ (fuel : Nat) (s : Dijkstra T) (r : Nat × T), Dijkstra.solve N fuel s = some r →
      ∃ s', Run N s s' ∧ s'.m_heap = [] ∧ r = (s'.m_lowest, s'.m_winner) := by
  intro fuel
  induction fuel with
  | zero => intro s r h; simp [Dijkstra.solve] at h
  | succ fuel ih =>
    intro s r h
    simp only [Dijkstra.solve] at h
    cases hx : extractTop heap_t.lt s.m_heap with
    | none =>
      rw [hx] at h
      simp only [Option.some.injEq] at h
      exact ⟨s, Run.refl s, (extractTop_eq_none _ _).1 hx, h.symm⟩
    | some p =>
      obtain ⟨ne, rest⟩ := p
      rw [hx] at h
      obtain ⟨s', hrun, hheap, hr⟩ := ih _ r h
      exact ⟨s', Run.step (iter_of_extractTop N s ne rest hx) hrun, hheap, hr⟩

/-! ## Successors generated by the search -/

theorem Desc.snoc (N : DijkstraNode T) {a m g : T} {c1 c : Nat} (h : Desc N a c1 m)
    (hm : N.completed m = false) (hg : (c, g) ∈ N.next m) : Desc N a c g := by
  induction h with
  | one h1 => exact Desc.cons h1 hm (Desc.one hg)
  | cons h1 h2 _ ih => exact Desc.cons h1 h2 (ih hm hg)

theorem Desc.append (N : DijkstraNode T) {a m g : T} {c1 c : Nat} (h : Desc N a c1 m)
    (hm : N.completed m = false) (hg : Desc N m c g) : Desc N a c g := by
  induction h with
  | one h1 => exact Desc.cons h1 hm hg
  | cons h1 h2 _ ih => exact Desc.cons h1 h2 (ih hm hg)

theorem Desc.reach (N : DijkstraNode T) (start : T) {n g : T} {c : Nat} (h : Desc N n c g) :
    (∀ p ∈ N.next n, Reach N start p.1 p.2) → Reach N start c g := by
  induction h with
  | one h1 => intro hn; exact hn _ h1
  | cons h1 _ _ ih =>
    intro hn
    exact ih (fun p hp => Reach.step (hn _ h1) hp)

theorem Desc.reach_start (N : DijkstraNode T) {start g : T} {c : Nat}
    (h : Desc N start c g) : Reach N start c g :=
  Desc.reach N start h (fun _ hp => Reach.first hp)

/-- Along a chain of expansions whose costs never decrease, a descendant costs
at least as much as the node it descends from. -/
theorem Desc.mono (N : DijkstraNode T) (start : T)
    (hmono : ∀ c1 m, Desc N start c1 m → N.completed m = false →
      ∀ p ∈ N.next m, c1 ≤ p.1)
    {m g : T} {c : Nat} (h : Desc N m c g) :
    ∀ c1, Desc N start c1 m → N.completed m = false → c1 ≤ c := by
  induction h with
  | one h1 => intro c1 hd hm; exact hmono c1 _ hd hm _ h1
  | cons h1 h2 _ ih =>
    intro c1 hd hm
    exact Nat.le_trans (hmono c1 _ hd hm _ h1) (ih _ (Desc.snoc N hd hm h1) h2)

/-! ## Properties of the loop over the successors -/

theorem visit_heap_mono (N : DijkstraNode T) (s : Dijkstra T) (n x : Nat × T)
    (hx : x ∈ s.m_heap) : x ∈ (s.visit N n).m_heap := by
  rcases visit_cases N s n with ⟨h, _⟩ | ⟨h, _⟩ | ⟨h, _⟩ <;> rw [h]
  · exact hx
  · exact hx
  · simp only [Dijkstra.push, List.mem_append]
    exact Or.inl hx

theorem foldl_visit_heap_mono (N : DijkstraNode T) (l : List (Nat × T)) :
    ∀ (s : Dijkstra T) (x : Nat × T), x ∈ s.m_heap →
      x ∈ (l.foldl (Dijkstra.visit N) s).m_heap := by
  induction l with
  | nil => intro s x hx; exact hx
  | cons n l ih => intro s x hx; exact ih _ x (visit_heap_mono N s n x hx)

/-- Every entry in the queue after the loop was there before or is a
successor that is not completed and was not above `m_lowest`. -/
theorem foldl_visit_heap_mem (N : DijkstraNode T) (l : List (Nat × T)) :
    ∀ (s : Dijkstra T) (x : Nat × T), x ∈ (l.foldl (Dijkstra.visit N) s).m_heap →
      x ∈ s.m_heap ∨ (x ∈ l ∧ N.completed x.2 = false ∧ x.1 ≤ s.m_lowest) := by
  induction l with
  | nil => intro s x hx; exact Or.inl hx
  | cons n l ih =>
    intro s x hx
    rcases ih (s.visit N n) x hx with h | ⟨h1, h2, h3⟩
    · rcases visit_cases N s n with ⟨hv, _⟩ | ⟨hv, _⟩ | ⟨hv, hc, hle⟩ <;> rw [hv] at h
      · exact Or.inl h
      · exact Or.inl h
      · simp only [Dijkstra.push, List.mem_append, List.mem_singleton] at h
        rcases h with h | h
        · exact Or.inl h
        · right
          have hxn : x = n := h
          subst hxn
          exact ⟨List.mem_cons_self _ _, hc, hle⟩
    · right
      exact ⟨List.mem_cons_of_mem _ h1, h2, Nat.le_trans h3 (visit_lowest_le N s n)⟩

/-- After the loop `m_lowest` is at most the cost of every completed successor. -/
theorem foldl_visit_goal (N : DijkstraNode T) (l : List (Nat × T)) :
    ∀ (s : Dijkstra T) (p : Nat × T), p ∈ l → N.completed p.2 = true →
      (l.foldl (Dijkstra.visit N) s).m_lowest ≤ p.1 := by
  induction l with
  | nil => intro s p hp; simp at hp
  | cons n l ih =>
    intro s p hp hc
    rcases List.mem_cons.1 hp with rfl | hp
    · refine Nat.le_trans (foldl_visit_lowest_le N l _) ?_
      rcases visit_cases N s p with ⟨hv, h | h⟩ | ⟨hv, _⟩ | ⟨hv, hc', _⟩ <;> rw [hv]
      · exact Nat.le_of_lt h
      · exact Nat.le_of_eq h.2.symm
      · rw [hc] at hc'; cases hc'
    · exact ih _ p hp hc

/-- After the loop a successor that is not completed is in the queue, unless
`m_lowest` is below its cost. -/
theorem foldl_visit_open (N : DijkstraNode T) (l : List (Nat × T)) :
    ∀ (s : Dijkstra T) (p : Nat × T), p ∈ l → N.completed p.2 = false →
      (l.foldl (Dijkstra.visit N) s).m_lowest < p.1 ∨
        p ∈ (l.foldl (Dijkstra.visit N) s).m_heap := by
  induction l with
  | nil => intro s p hp; simp at hp
  | cons n l ih =>
    intro s p hp hc
    rcases List.mem_cons.1 hp with rfl | hp
    · rcases visit_cases N s p with ⟨hv, h | h⟩ | ⟨hv, hc', _⟩ | ⟨hv, _, _⟩
      · left
        refine Nat.lt_of_le_of_lt (foldl_visit_lowest_le N l _) ?_
        rw [hv]; exact h
      · rw [hc] at h; cases h.1
      · rw [hc] at hc'; cases hc'
      · right
        refine foldl_visit_heap_mono N l _ p ?_
        rw [hv]
        simp [Dijkstra.push]
    · exact ih _ p hp hc

/-- After the loop the pair `(m_lowest, m_winner)` is what it was, or a
completed successor that was strictly below the old `m_lowest`. -/
theorem foldl_visit_winner (N : DijkstraNode T) (l : List (Nat × T)) :
    ∀ s : Dijkstra T,
      ((l.foldl (Dijkstra.visit N) s).m_lowest = s.m_lowest ∧
        (l.foldl (Dijkstra.visit N) s).m_winner = s.m_winner) ∨
      ∃ p ∈ l, N.completed p.2 = true ∧ p.1 < s.m_lowest ∧
        (l.foldl (Dijkstra.visit N) s).m_lowest = p.1 ∧
        (l.foldl (Dijkstra.visit N) s).m_winner = p.2 := by
  induction l with
  | nil => intro s; exact Or.inl ⟨rfl, rfl⟩
  | cons n l ih =>
    intro s
    have hle := visit_lowest_le N s n
    rcases ih (s.visit N n) with ⟨h1, h2⟩ | ⟨p, hp, hc, hlt, h1, h2⟩
    · rcases visit_cases N s n with ⟨hv, _⟩ | ⟨hv, hc, hlt⟩ | ⟨hv, _, _⟩
      · left
        exact ⟨h1.trans (by rw [hv]), h2.trans (by rw [hv])⟩
      · right
        exact ⟨n, List.mem_cons_self _ _, hc, hlt, h1.trans (by rw [hv]),
          h2.trans (by rw [hv])⟩
      · left
        exact ⟨h1.trans (by rw [hv]; rfl), h2.trans (by rw [hv]; rfl)⟩
    · right
      exact ⟨p, List.mem_cons_of_mem _ hp, hc, Nat.lt_of_lt_of_le hlt hle, h1, h2⟩

/-! ## The invariant of the `while` loop -/

theorem inv_init (N : DijkstraNode T) (keyMax : Nat) (start : T) (k : Nat) :
    Inv N keyMax start (Dijkstra.init N keyMax start k) := by
  refine ⟨Or.inl ⟨rfl, rfl⟩, ?_⟩
  intro e he
  simp only [Dijkstra.init, Dijkstra.push, List.nil_append, List.mem_singleton] at he
  left; rw [he]

theorem cover_init (N : DijkstraNode T) (keyMax : Nat) (start : T) (k : Nat) :
    Cover N start (Dijkstra.init N keyMax start k) := by
  intro c g hd _
  right
  exact ⟨(k, start), by simp [Dijkstra.init, Dijkstra.push], hd⟩

/-- A successor of a queued entry is a successor generated by the search. -/
theorem desc_of_src (N : DijkstraNode T) (start : T) (e p : Nat × T)
    (he : e.2 = start ∨ (Desc N start e.1 e.2 ∧ N.completed e.2 = false))
    (hp : p ∈ N.next e.2) : Desc N start p.1 p.2 := by
  rcases he with he | ⟨hd, hc⟩
  · rw [he] at hp; exact Desc.one hp
  · exact Desc.snoc N hd hc hp

/-- The invariant `Inv` is kept when any queued entry is expanded. -/
theorem inv_expand (N : DijkstraNode T) (keyMax : Nat) (start : T)
    (s : Dijkstra T) (ne : Nat × T) (rest : List (Nat × T))
    (hperm : List.Perm (ne :: rest) s.m_heap) (hinv : Inv N keyMax start s) :
    Inv N keyMax start (s.expand N ne rest) := by
  have hne : ne ∈ s.m_heap := hperm.subset (List.mem_cons_self _ _)
  have hsrc := hinv.src ne hne
  have hrest : ∀ x ∈ rest, x ∈ s.m_heap := fun x hx =>
    hperm.subset (List.mem_cons_of_mem _ hx)
  refine ⟨?_, ?_⟩
  · rcases foldl_visit_winner N (N.next ne.2) { s with m_heap := rest } with
      ⟨h1, h2⟩ | ⟨p, hp, hc, hlt, h1, h2⟩
    · rcases hinv.att with ⟨a1, a2⟩ | ⟨a1, a2, a3⟩
      · left
        exact ⟨h1.trans a1, h2.trans a2⟩
      · right
        unfold Dijkstra.expand
        rw [h1, h2]
        exact ⟨a1, a2, a3⟩
    · right
      unfold Dijkstra.expand
      rw [h1, h2]
      refine ⟨?_, desc_of_src N start ne p hsrc hp, hc⟩
      have hk : s.m_lowest ≤ keyMax := by
        rcases hinv.att with ⟨a1, _⟩ | ⟨a1, _⟩
        · exact Nat.le_of_eq a1
        · exact Nat.le_of_lt a1
      exact Nat.lt_of_lt_of_le hlt hk
  · intro e he
    rcases foldl_visit_heap_mem N (N.next ne.2) { s with m_heap := rest } e he with
      h | ⟨h1, h2, _⟩
    · exact hinv.src e (hrest e h)
    · right
      exact ⟨desc_of_src N start ne e hsrc h1, h2⟩

/-- The invariant `Cover` is kept when any queued entry is expanded, provided
no successor of a generated node costs less than that node. -/
theorem cover_expand (N : DijkstraNode T) (keyMax : Nat) (start : T)
    (hmono : ∀ c1 m, Desc N start c1 m → N.completed m = false →
      ∀ p ∈ N.next m, c1 ≤ p.1)
    (s : Dijkstra T) (ne : Nat × T) (rest : List (Nat × T))
    (hperm : List.Perm (ne :: rest) s.m_heap) (hinv : Inv N keyMax start s)
    (hcov : Cover N start s) : Cover N start (s.expand N ne rest) := by
  have hne : ne ∈ s.m_heap := hperm.subset (List.mem_cons_self _ _)
  have hsrc := hinv.src ne hne
  intro c g hd hg
  have hle : (s.expand N ne rest).m_lowest ≤ s.m_lowest :=
    foldl_visit_lowest_le N (N.next ne.2) { s with m_heap := rest }
  rcases hcov c g hd hg with h | ⟨e, he, hde⟩
  · exact Or.inl (Nat.le_trans hle h)
  · rcases List.mem_cons.1 (hperm.symm.subset he) with heq | hmem
    · subst heq
      cases hde with
      | one h1 =>
        left
        exact foldl_visit_goal N (N.next e.2) { s with m_heap := rest } (c, g) h1 hg
      | cons h1 h2 h3 =>
        rename_i m c1
        have hdm : Desc N start c1 m := desc_of_src N start e (c1, m) hsrc h1
        rcases foldl_visit_open N (N.next e.2) { s with m_heap := rest } (c1, m) h1 h2 with
          h | h
        · left
          have hcc : c1 ≤ c := Desc.mono N start hmono h3 c1 hdm h2
          exact Nat.le_of_lt (Nat.lt_of_lt_of_le h hcc)
        · right
          exact ⟨(c1, m), h, h3⟩
    · right
      exact ⟨e, foldl_visit_heap_mono N (N.next ne.2) { s with m_heap := rest } e hmem, hde⟩

theorem inv_run (N : DijkstraNode T) (keyMax : Nat) (start : T)
    (s s' : Dijkstra T) (hrun : Run N s s') (hinv : Inv N keyMax start s) :
    Inv N keyMax start s' := by
  induction hrun with
  | refl s => exact hinv
  | step hi _ ih =>
    obtain ⟨ne, rest, hperm, _, rfl⟩ := hi
    exact ih (inv_expand N keyMax start _ ne rest hperm hinv)

theorem cover_run (N : DijkstraNode T) (keyMax : Nat) (start : T)
    (hmono : ∀ c1 m, Desc N start c1 m → N.completed m = false →
      ∀ p ∈ N.next m, c1 ≤ p.1)
    (s s' : Dijkstra T) (hrun : Run N s s') (hinv : Inv N keyMax start s)
    (hcov : Cover N start s) : Cover N start s' := by
  induction hrun with
  | refl s => exact hcov
  | step hi _ ih =>
    obtain ⟨ne, rest, hperm, _, rfl⟩ := hi
    exact ih (inv_expand N keyMax start _ ne rest hperm hinv)
      (cover_expand N keyMax start hmono _ ne rest hperm hinv hcov)

/-- Under costs that never decrease, every reachable goal is preceded by a
goal the search can generate that costs no more. -/
theorem reach_goal_desc (N : DijkstraNode T) (start : T)
    (hmono : ∀ c n, Reach N start c n → ∀ p ∈ N.next n, c ≤ p.1)
    {c : Nat} {n : T} (h : Reach N start c n) :
    (∃ c0 g0, Desc N start c0 g0 ∧ N.completed g0 = true ∧ c0 ≤ c) ∨
      (Desc N start c n ∧ N.completed n = false) := by
  induction h with
  | first h1 =>
    rename_i c n
    cases hc : N.completed n with
    | true => exact Or.inl ⟨c, n, Desc.one h1, hc, Nat.le_refl _⟩
    | false => exact Or.inr ⟨Desc.one h1, rfl⟩
  | step hr h1 ih =>
    rename_i c c' n n'
    have hcc : c ≤ c' := hmono c n hr _ h1
    rcases ih with ⟨c0, g0, hd, hg, hle⟩ | ⟨hd, hn⟩
    · exact Or.inl ⟨c0, g0, hd, hg, Nat.le_trans hle hcc⟩
    · have hd' : Desc N start c' n' := Desc.snoc N hd hn h1
      cases hc : N.completed n' with
      | true => exact Or.inl ⟨c', n', hd', hc, Nat.le_refl _⟩
      | false => exact Or.inr ⟨hd', rfl⟩

/-- Optimality for every implementation of the priority queue: a finished run
has found the cheapest reachable goal. -/
theorem run_optimal (N : DijkstraNode T) (keyMax : Nat) (start : T) (k : Nat)
    (s' : Dijkstra T) (hrun : Run N (Dijkstra.init N keyMax start k) s')
    (hempty : s'.m_heap = [])
    (htype : ∀ c n, Reach N start c n → c ≤ keyMax)
    (hmono : ∀ c n, Reach N start c n → ∀ p ∈ N.next n, c ≤ p.1) :
    (∀ c g, Reach N start c g → N.completed g = true → s'.m_lowest ≤ c) ∧
    ((∃ g, Reach N start s'.m_lowest g ∧ N.completed g = true) ∨
      (s'.m_lowest = keyMax ∧ ∀ c g, Reach N start c g → N.completed g = false)) := by
  have hmono' : ∀ c1 m, Desc N start c1 m → N.completed m = false →
      ∀ p ∈ N.next m, c1 ≤ p.1 :=
    fun c1 m hd _ p hp => hmono c1 m (Desc.reach_start N hd) p hp
  have hinv := inv_run N keyMax start _ s' hrun (inv_init N keyMax start k)
  have hcov := cover_run N keyMax start hmono' _ s' hrun (inv_init N keyMax start k)
    (cover_init N keyMax start k)
  have hlow : ∀ c g, Reach N start c g → N.completed g = true → s'.m_lowest ≤ c := by
    intro c g hr hg
    rcases reach_goal_desc N start hmono hr with ⟨c0, g0, hd, hg0, hle⟩ | ⟨_, hn⟩
    · rcases hcov c0 g0 hd hg0 with h | ⟨e, he, _⟩
      · exact Nat.le_trans h hle
      · rw [hempty] at he; cases he
    · rw [hg] at hn; cases hn
  refine ⟨hlow, ?_⟩
  rcases hinv.att with ⟨a1, _⟩ | ⟨_, a2, a3⟩
  · by_cases hex : ∃ c g, Reach N start c g ∧ N.completed g = true
    · obtain ⟨c, g, hr, hg⟩ := hex
      left
      have h1 : s'.m_lowest ≤ c := hlow c g hr hg
      have h2 : c ≤ keyMax := htype c g hr
      have h3 : c = s'.m_lowest := by omega
      exact ⟨g, h3 ▸ hr, hg⟩
    · right
      refine ⟨a1, ?_⟩
      intro c g hr
      cases hc : N.completed g with
      | false => rfl
      | true => exact absurd ⟨c, g, hr, hc⟩ hex
  · exact Or.inl ⟨_, Desc.reach_start N a2, a3⟩

/-! ## Runs without ties -/

theorem visit_equiv (N : DijkstraNode T) (s t : Dijkstra T) (n : Nat × T)
    (h : Dijkstra.Equiv s t) : Dijkstra.Equiv (s.visit N n) (t.visit N n) := by
  obtain ⟨h1, h2, h3⟩ := h
  unfold Dijkstra.visit
  rw [h1]
  split_ifs
  · exact ⟨h1, h2, h3⟩
  · exact ⟨rfl, rfl, h3⟩
  · exact ⟨h1, h2, h3⟩
  · exact ⟨h1, h2, List.Perm.append_right _ h3⟩

theorem foldl_visit_equiv (N : DijkstraNode T) (l : List (Nat × T)) :
    ∀ s t : Dijkstra T, Dijkstra.Equiv s t →
      Dijkstra.Equiv (l.foldl (Dijkstra.visit N) s) (l.foldl (Dijkstra.visit N) t) := by
  induction l with
  | nil => intro s t h; exact h
  | cons n l ih => intro s t h; exact ih _ _ (visit_equiv N s t n h)

/-- When the executable `solve` never meets a tie, every implementation of the
priority queue makes the same run: a finished run from an equivalent state
ends with the result of `solve`. -/
theorem run_unique (N : DijkstraNode T) :
    ∀ (fuel : Nat) (s t : Dijkstra T), Dijkstra.noTies N fuel t = true →
      Dijkstra.Equiv s t → ∀ s', Run N s s' → s'.m_heap = [] →
      Dijkstra.solve N fuel t = some (s'.m_lowest, s'.m_winner) := by
  intro fuel
  induction fuel with
  | zero => intro s t h; simp [Dijkstra.noTies] at h
  | succ fuel ih =>
    intro s t hnt heq s' hrun hempty
    obtain ⟨h1, h2, h3⟩ := heq
    simp only [Dijkstra.noTies] at hnt
    simp only [Dijkstra.solve]
    cases hx : extractTop heap_t.lt t.m_heap with
    | none =>
      have ht : t.m_heap = [] := (extractTop_eq_none _ _).1 hx
      have hs : s.m_heap = [] := by
        rw [ht] at h3; exact List.Perm.eq_nil h3
      cases hrun with
      | refl => simp only [h1, h2]
      | step hi _ =>
        obtain ⟨ne, rest, hperm, _, _⟩ := hi
        rw [hs] at hperm
        exact absurd (List.Perm.eq_nil hperm) (List.cons_ne_nil _ _)
    | some q =>
      obtain ⟨ne, rest⟩ := q
      rw [hx] at hnt
      simp only [Bool.and_eq_true, List.all_eq_true, decide_eq_true_eq] at hnt
      obtain ⟨htie, hnt'⟩ := hnt
      have hpt : List.Perm (ne :: rest) t.m_heap := extractTop_perm _ _ _ _ hx
      cases hrun with
      | refl =>
        rw [hempty] at h3
        have : ne ∈ ([] : List (Nat × T)) :=
          (hpt.trans h3.symm).subset (List.mem_cons_self _ _)
        cases this
      | step hi hrun' =>
        obtain ⟨ne', rest', hperm, hmin, rfl⟩ := hi
        have hall : List.Perm (ne' :: rest') (ne :: rest) := (hperm.trans h3).trans hpt.symm
        have hne : ne' = ne := by
          rcases List.mem_cons.1 (hall.subset (List.mem_cons_self _ _)) with h | h
          · exact h
          · have hlt := htie ne' h
            have hmem : ne ∈ s.m_heap := (hpt.trans h3.symm).subset (List.mem_cons_self _ _)
            have := hmin ne hmem
            simp only [heap_t.lt, decide_eq_false_iff_not] at this
            omega
        subst hne
        have hrest : List.Perm rest' rest := List.Perm.cons_inv hall
        have hequiv : Dijkstra.Equiv (s.expand N ne' rest') (t.expand N ne' rest) :=
          foldl_visit_equiv N _ _ _ ⟨h1, h2, hrest⟩
        exact ih _ _ hnt' hequiv s' hrun' hempty

/-! ## The example node type -/

theorem tiny_reach {c n : Nat} (h : Reach tinyNode 0 c n) :
    (c, n) ∈ [(4, 1), (1, 2), (5, 3), (3, 3), (3, 4)] := by
  induction h with
  | first h1 =>
    simp only [tinyNode, List.mem_cons, Prod.mk.injEq, List.mem_singleton] at h1
    rcases h1 with ⟨rfl, rfl⟩ | ⟨rfl, rfl⟩ | h1
    · decide
    · decide
    · cases h1
  | step _ h1 ih =>
    simp only [List.mem_cons, Prod.mk.injEq, List.mem_singleton] at ih
    rcases ih with ⟨rfl, rfl⟩ | ⟨rfl, rfl⟩ | ⟨rfl, rfl⟩ | ⟨rfl, rfl⟩ | ⟨rfl, rfl⟩ | ih
    · simp only [tinyNode, List.mem_singleton, Prod.mk.injEq] at h1
      obtain ⟨rfl, rfl⟩ := h1
      decide
    · simp only [tinyNode, List.mem_cons, Prod.mk.injEq, List.mem_singleton] at h1
      rcases h1 with ⟨rfl, rfl⟩ | ⟨rfl, rfl⟩ | h1
      · decide
      · decide
      · cases h1
    · simp [tinyNode] at h1
    · simp [tinyNode] at h1
    · simp [tinyNode] at h1
    · cases ih

theorem tiny_type (c n : Nat) (h : Reach tinyNode 0 c n) : c ≤ 10 := by
  have h' := tiny_reach h
  simp only [List.mem_cons, Prod.mk.injEq, List.mem_singleton] at h'
  rcases h' with ⟨rfl, _⟩ | ⟨rfl, _⟩ | ⟨rfl, _⟩ | ⟨rfl, _⟩ | ⟨rfl, _⟩ | h'
  · decide
  · decide
  · decide
  · decide
  · decide
  · cases h'

theorem tiny_mono (c n : Nat) (h : Reach tinyNode 0 c n) :
    ∀ p ∈ tinyNode.next n, c ≤ p.1 := by
  have h' := tiny_reach h
  simp only [List.mem_cons, Prod.mk.injEq, List.mem_singleton] at h'
  rcases h' with ⟨rfl, rfl⟩ | ⟨rfl, rfl⟩ | ⟨rfl, rfl⟩ | ⟨rfl, rfl⟩ | ⟨rfl, rfl⟩ | h'
  · decide
  · decide
  · decide
  · decide
  · decide
  · cases h'

/-! ## The claims about `Dijkstra` -/

/-- C1: optimality of `solve`. If `solve` returns `(c, w)` for a start node
`start` with start cost `k`, every generated cost is a value of `Key`
(`htype`) and no successor costs less than the node it was expanded from
(`hmono`), then `c` is a lower bound of the costs of all goal nodes reachable
from the start node by one or more expansion steps, and `c` is the cost of such
a goal node, unless there is none, in which case `c` is the maximum of `Key`. -/
theorem solve_optimal (N : DijkstraNode T) (keyMax : Nat) (start : T) (k fuel c : Nat)
    (w : T)
    (hsolve : Dijkstra.solve N fuel (Dijkstra.init N keyMax start k) = some (c, w))
    (htype : ∀ c' n, Reach N start c' n → c' ≤ keyMax)
    (hmono : ∀ c' n, Reach N start c' n → ∀ p ∈ N.next n, c' ≤ p.1) :
    (∀ c' g, Reach N start c' g → N.completed g = true → c ≤ c') ∧
    ((∃ g, Reach N start c g ∧ N.completed g = true) ∨
      (c = keyMax ∧ ∀ c' g, Reach N start c' g → N.completed g = false)) := by
  obtain ⟨s', hrun, hempty, hr⟩ := solve_run N fuel _ _ hsolve
  have hc : c = s'.m_lowest := congrArg Prod.fst hr
  rw [hc]
  exact run_optimal N keyMax start k s' hrun hempty htype hmono

/-- Witness of C1 on `tinyNode` with `Key` maximum 10: `solve` returns cost 3,
the cost of the cheapest of the reachable goals `(5, 3)`, `(3, 3)`, `(3, 4)`. -/
theorem solve_optimal_witness :
    Dijkstra.solve tinyNode 4 (Dijkstra.init tinyNode 10 0 0) = some (3, 3) ∧
    (∀ c' g, Reach tinyNode 0 c' g → tinyNode.completed g = true → 3 ≤ c') ∧
    ((∃ g, Reach tinyNode 0 3 g ∧ tinyNode.completed g = true) ∨
      (3 = 10 ∧ ∀ c' g, Reach tinyNode 0 c' g → tinyNode.completed g = false)) :=
  ⟨by decide, solve_optimal tinyNode 10 0 0 4 3 3 (by decide) tiny_type tiny_mono⟩

/-- C2: the sample of the test. On the six-city graph, started at Mannheim
with cost 0 and `uint32_t` keys, `solve` stops after ten iterations and returns
cost 565 and a winner whose last city is Bremen (reached over Essen). No two
queued entries ever tie for the lowest cost, so every implementation of the
priority queue ends with this cost and this winner. -/
theorem sample_solve :
    Dijkstra.solve sampleNode 11 (Dijkstra.init sampleNode uint32Max Node.default 0) =
      some (565, { last := "Bremen", route := ["Mannheim", "Essen"], costs := 565 }) ∧
    (∀ (c : Nat) (w : Node),
      Dijkstra.solve sampleNode 11 (Dijkstra.init sampleNode uint32Max Node.default 0) =
        some (c, w) → c = 565 ∧ w.last = "Bremen") ∧
    (∀ s', Run sampleNode (Dijkstra.init sampleNode uint32Max Node.default 0) s' →
      s'.m_heap = [] → s'.m_lowest = 565 ∧ s'.m_winner.last = "Bremen") := by
  have hsolve : Dijkstra.solve sampleNode 11
      (Dijkstra.init sampleNode uint32Max Node.default 0) =
      some (565, { last := "Bremen", route := ["Mannheim", "Essen"], costs := 565 }) := by
    decide
  refine ⟨hsolve, ?_, ?_⟩
  · intro c w h
    rw [hsolve] at h
    simp only [Option.some.injEq, Prod.mk.injEq] at h
    obtain ⟨rfl, rfl⟩ := h
    exact ⟨rfl, rfl⟩
  · intro s' hrun hempty
    have hnt : Dijkstra.noTies sampleNode 11
        (Dijkstra.init sampleNode uint32Max Node.default 0) = true := by decide
    have h := run_unique sampleNode 11 _ _ hnt ⟨rfl, rfl, List.Perm.refl _⟩ s' hrun hempty
    rw [hsolve] at h
    simp only [Option.some.injEq, Prod.mk.injEq] at h
    obtain ⟨h1, h2⟩ := h
    rw [← h1, ← h2]
    exact ⟨rfl, rfl⟩

/-- C3: winner replacement is strict. Visiting a successor `n` changes
`m_winner` only if `n` is completed and costs strictly less than `m_lowest`.
Once a completed successor `n` has been visited, a completed successor `n2` of
the same cost leaves the winner of every later state `t` (one whose `m_lowest`
is not above the one reached after `n`) as it is; and if `n` was recorded as
the winner, it is still the winner after `n2` has been visited next. -/
theorem visit_winner_strict (N : DijkstraNode T) (s : Dijkstra T) (n : Nat × T) :
    ((s.visit N n).m_winner ≠ s.m_winner → N.completed n.2 = true ∧ n.1 < s.m_lowest) ∧
    (∀ (t : Dijkstra T) (n2 : Nat × T), N.completed n.2 = true → N.completed n2.2 = true →
      n2.1 = n.1 → t.m_lowest ≤ (s.visit N n).m_lowest →
      (t.visit N n2).m_winner = t.m_winner) ∧
    (∀ n2 : Nat × T, N.completed n.2 = true → N.completed n2.2 = true → n2.1 = n.1 →
      n.1 < s.m_lowest → ((s.visit N n).visit N n2).m_winner = n.2) := by
  have hgoal : N.completed n.2 = true → (s.visit N n).m_lowest ≤ n.1 := by
    intro hc
    rcases visit_cases N s n with ⟨hv, h | h⟩ | ⟨hv, _⟩ | ⟨hv, hc', _⟩
    · rw [hv]; exact Nat.le_of_lt h
    · rw [hv]; exact Nat.le_of_eq h.2.symm
    · rw [hv]
    · rw [hc] at hc'; cases hc'
  have hkeep : ∀ (t : Dijkstra T) (n2 : Nat × T), N.completed n2.2 = true →
      t.m_lowest ≤ n2.1 → t.visit N n2 = t := by
    intro t n2 hc2 hle
    rcases visit_cases N t n2 with ⟨hv, _⟩ | ⟨_, _, hlt⟩ | ⟨_, hc', _⟩
    · exact hv
    · omega
    · rw [hc2] at hc'; cases hc'
  refine ⟨?_, ?_, ?_⟩
  · intro hne
    rcases visit_cases N s n with ⟨hv, _⟩ | ⟨_, hc, hlt⟩ | ⟨hv, _, _⟩
    · rw [hv] at hne; exact absurd rfl hne
    · exact ⟨hc, hlt⟩
    · rw [hv] at hne; exact absurd rfl hne
  · intro t n2 hc hc2 heq hle
    rw [hkeep t n2 hc2 (by have := hgoal hc; omega)]
  · intro n2 hc hc2 heq hlt
    rw [hkeep (s.visit N n) n2 hc2 (by have := hgoal hc; omega)]
    rcases visit_cases N s n with ⟨_, h | h⟩ | ⟨hv, _⟩ | ⟨_, hc', _⟩
    · omega
    · omega
    · rw [hv]
    · rw [hc] at hc'; cases hc'

/-- Witness of C3 on `tinyNode`: with `m_lowest` 10 and winner `0`, the goals
`3` and `4` arrive with cost 3 each; the winner after both is `3`. -/
theorem visit_winner_strict_witness :
    (((({ m_lowest := 10, m_winner := 0, m_heap := [] } : Dijkstra Nat).visit tinyNode
        (3, 3)).visit tinyNode (3, 4)).m_winner = 3) :=
  (visit_winner_strict tinyNode { m_lowest := 10, m_winner := 0, m_heap := [] } (3, 3)).2.2
    (3, 4) (by decide) (by decide) rfl (by decide)

/-- C4: pruning. A successor whose cost is above `m_lowest` when it is visited
leaves the whole state (queue, `m_lowest`, `m_winner`) unchanged. A visit
either leaves the queue as it is or adds exactly the visited successor, and
then its cost is at most the `m_lowest` of that moment. The constructor
inserts the start entry while `m_lowest` is the maximum of `Key`, which no
start cost of type `Key` exceeds. -/
theorem visit_prune (N : DijkstraNode T) (keyMax : Nat) (s : Dijkstra T) (n : Nat × T) :
    (n.1 > s.m_lowest → s.visit N n = s) ∧
    ((s.visit N n).m_heap = s.m_heap ∨
      ((s.visit N n).m_heap = s.m_heap ++ [n] ∧ n.1 ≤ s.m_lowest)) ∧
    (∀ (start : T) (k : Nat), k ≤ keyMax →
      (Dijkstra.init N keyMax start k).m_heap = [(k, start)] ∧
      k ≤ (Dijkstra.init N keyMax start k).m_lowest) := by
  refine ⟨visit_above_lowest N s n, ?_, ?_⟩
  · rcases visit_cases N s n with ⟨hv, _⟩ | ⟨hv, _⟩ | ⟨hv, _, hle⟩
    · left; rw [hv]
    · left; rw [hv]
    · right; rw [hv]; exact ⟨rfl, hle⟩
  · intro start k hk
    exact ⟨rfl, hk⟩

/-- Witness of C4 on `tinyNode`: with `m_lowest` 3 the successor `(5, 3)` is
discarded, and the start entry `(0, 0)` is inserted below the maximum 10. -/
theorem visit_prune_witness :
    (({ m_lowest := 3, m_winner := 3, m_heap := [(4, 1)] } : Dijkstra Nat).visit tinyNode (5, 3)
      = { m_lowest := 3, m_winner := 3, m_heap := [(4, 1)] }) ∧
    ((Dijkstra.init tinyNode 10 0 0).m_heap = [(0, 0)] ∧
      0 ≤ (Dijkstra.init tinyNode 10 0 0).m_lowest) :=
  ⟨(visit_prune tinyNode 10 { m_lowest := 3, m_winner := 3, m_heap := [(4, 1)] } (5, 3)).1
      (by decide),
    (visit_prune tinyNode 10 { m_lowest := 3, m_winner := 3, m_heap := [(4, 1)] } (5, 3)).2.2
      0 0 (by decide)⟩

/-- C5: `m_lowest` never increases. It starts at the maximum of `Key`; every
visited successor, every iteration of the `while` loop and hence every run
leaves it at most what it was, so it never exceeds the maximum of `Key`. -/
theorem lowest_nonincreasing (N : DijkstraNode T) (keyMax : Nat) (start : T) (k : Nat) :
    (Dijkstra.init N keyMax start k).m_lowest = keyMax ∧
    (∀ (s : Dijkstra T) (n : Nat × T), (s.visit N n).m_lowest ≤ s.m_lowest) ∧
    (∀ (s : Dijkstra T) (l : List (Nat × T)),
      (l.foldl (Dijkstra.visit N) s).m_lowest ≤ s.m_lowest) ∧
    (∀ s s' : Dijkstra T, Iter N s s' → s'.m_lowest ≤ s.m_lowest) ∧
    (∀ s s' : Dijkstra T, Run N s s' → s'.m_lowest ≤ s.m_lowest) ∧
    (∀ s : Dijkstra T, Run N (Dijkstra.init N keyMax start k) s → s.m_lowest ≤ keyMax) :=
  ⟨rfl, visit_lowest_le N, fun s l => foldl_visit_lowest_le N l s, iter_lowest_le N,
    run_lowest_le N, fun s h => run_lowest_le N _ s h⟩

/-- As long as no completed successor below the maximum of `Key` is generated,
`solve` started in a state that holds the constructed `m_lowest` and
`m_winner` returns them. -/
theorem solve_no_goal (N : DijkstraNode T) (keyMax : Nat) :
    ∀ (fuel : Nat) (s : Dijkstra T) (r : Nat × T),
      s.m_lowest = keyMax → s.m_winner = N.dflt →
      (∀ p ∈ Dijkstra.generated N fuel s, N.completed p.2 = true → keyMax ≤ p.1) →
      Dijkstra.solve N fuel s = some r → r = (keyMax, N.dflt) := by
  intro fuel
  induction fuel with
  | zero => intro s r _ _ _ h; simp [Dijkstra.solve] at h
  | succ fuel ih =>
    intro s r hl hw hgen h
    simp only [Dijkstra.solve] at h
    simp only [Dijkstra.generated] at hgen
    cases hx : extractTop heap_t.lt s.m_heap with
    | none =>
      rw [hx] at h
      simp only [Option.some.injEq] at h
      rw [← h, hl, hw]
    | some q =>
      obtain ⟨ne, rest⟩ := q
      rw [hx] at h
      simp only [hx] at hgen
      have hgen1 : ∀ p ∈ N.next ne.2, N.completed p.2 = true → keyMax ≤ p.1 :=
        fun p hp => hgen p (List.mem_append.2 (Or.inl hp))
      have hgen2 : ∀ p ∈ Dijkstra.generated N fuel (s.expand N ne rest),
          N.completed p.2 = true → keyMax ≤ p.1 :=
        fun p hp => hgen p (List.mem_append.2 (Or.inr hp))
      rcases foldl_visit_winner N (N.next ne.2) { s with m_heap := rest } with
        ⟨h1, h2⟩ | ⟨p, hp, hc, hlt, _, _⟩
      · exact ih (s.expand N ne rest) r (h1.trans hl) (h2.trans hw) hgen2 h
      · have h3 := hgen1 p hp hc
        have h4 : p.1 < keyMax := by rw [← hl]; exact hlt
        omega

/-- C6: what `solve` returns. Every result of `solve` is the pair
`(m_lowest, m_winner)` of a state reached by the loop in which the queue is
empty, and in such a state `solve` returns that pair at once. If no completed
successor with a cost strictly below the maximum of `Key` is generated during
the run, the result is the maximum of `Key` and the default-constructed node;
this is so in particular when `next()` of the start node is empty. -/
theorem solve_returns (N : DijkstraNode T) (keyMax : Nat) :
    (∀ (fuel : Nat) (s : Dijkstra T) (r : Nat × T), Dijkstra.solve N fuel s = some r →
      ∃ s', Run N s s' ∧ s'.m_heap = [] ∧ r = (s'.m_lowest, s'.m_winner)) ∧
    (∀ (fuel : Nat) (s : Dijkstra T), s.m_heap = [] →
      Dijkstra.solve N (fuel + 1) s = some (s.m_lowest, s.m_winner)) ∧
    (∀ (start : T) (k fuel : Nat) (r : Nat × T),
      (∀ p ∈ Dijkstra.generated N fuel (Dijkstra.init N keyMax start k),
        N.completed p.2 = true → keyMax ≤ p.1) →
      Dijkstra.solve N fuel (Dijkstra.init N keyMax start k) = some r →
      r = (keyMax, N.dflt)) ∧
    (∀ (start : T) (k fuel : Nat), N.next start = [] →
      Dijkstra.solve N (fuel + 2) (Dijkstra.init N keyMax start k) = some (keyMax, N.dflt)) := by
  refine ⟨solve_run N, ?_, ?_, ?_⟩
  · intro fuel s hs
    simp [Dijkstra.solve, hs, extractTop]
  · intro start k fuel r hgen h
    exact solve_no_goal N keyMax fuel _ r rfl rfl hgen h
  · intro start k fuel hnext
    simp [Dijkstra.solve, Dijkstra.init, Dijkstra.push, extractTop, Dijkstra.expand, hnext]

/-- Witness of C6 on `tinyNode`: started at node `1` with `Key` maximum 5, the
only generated successor is the goal `(5, 3)`, which is not below the maximum;
`solve` returns the maximum and the default node. Started at node `3`, whose
`next()` is empty, it does so as well. -/
theorem solve_returns_witness :
    Dijkstra.solve tinyNode 2 (Dijkstra.init tinyNode 5 1 4) = some (5, 0) ∧
    ((5, 0) : Nat × Nat) = (5, tinyNode.dflt) ∧
    Dijkstra.solve tinyNode 2 (Dijkstra.init tinyNode 5 3 0) = some (5, tinyNode.dflt) :=
  ⟨by decide,
    (solve_returns tinyNode 5).2.2.1 1 4 2 (5, 0) (by decide) (by decide),
    (solve_returns tinyNode 5).2.2.2 3 0 0 rfl⟩

/-- C7: the start node is never goal-tested. The constructor queues the start
node whatever `completed()` says about it; the first iteration of `solve` calls
`next()` on it and visits its successors from the constructed `m_lowest` and
`m_winner`. So for a start node that is completed and whose `next()` is empty
`solve` returns the maximum of `Key` and the default node, which differs from
the start cost and start node whenever the start cost is below the maximum. -/
theorem start_not_goal_tested (N : DijkstraNode T) (keyMax : Nat) (start : T) (k : Nat) :
    (Dijkstra.init N keyMax start k =
      { m_lowest := keyMax, m_winner := N.dflt, m_heap := [(k, start)] }) ∧
    (∀ fuel : Nat, Dijkstra.solve N (fuel + 1) (Dijkstra.init N keyMax start k) =
      Dijkstra.solve N fuel ((N.next start).foldl (Dijkstra.visit N)
        { m_lowest := keyMax, m_winner := N.dflt, m_heap := [] })) ∧
    (∀ fuel : Nat, N.completed start = true → N.next start = [] →
      Dijkstra.solve N (fuel + 2) (Dijkstra.init N keyMax start k) = some (keyMax, N.dflt) ∧
      (k < keyMax →
        Dijkstra.solve N (fuel + 2) (Dijkstra.init N keyMax start k) ≠ some (k, start))) := by
  have hsolve : ∀ fuel : Nat, N.next start = [] →
      Dijkstra.solve N (fuel + 2) (Dijkstra.init N keyMax start k) = some (keyMax, N.dflt) := by
    intro fuel hnext
    simp [Dijkstra.solve, Dijkstra.init, Dijkstra.push, extractTop, Dijkstra.expand, hnext]
  refine ⟨rfl, ?_, ?_⟩
  · intro fuel
    simp [Dijkstra.solve, Dijkstra.init, Dijkstra.push, extractTop, Dijkstra.expand]
  · intro fuel _ hnext
    refine ⟨hsolve fuel hnext, ?_⟩
    intro hk
    rw [hsolve fuel hnext]
    intro h
    simp only [Option.some.injEq, Prod.mk.injEq] at h
    omega

/-- Witness of C7 on `tinyNode`: node `3` is completed and has no successor;
started there with cost 0 and `Key` maximum 10, `solve` returns `(10, 0)`
and not `(0, 3)`. -/
theorem start_not_goal_tested_witness :
    tinyNode.completed 3 = true ∧
    Dijkstra.solve tinyNode 2 (Dijkstra.init tinyNode 10 3 0) = some (10, 0) ∧
    Dijkstra.solve tinyNode 2 (Dijkstra.init tinyNode 10 3 0) ≠ some (0, 3) :=
  ⟨by decide,
    ((start_not_goal_tested tinyNode 10 3 0).2.2 0 (by decide) rfl).1,
    ((start_not_goal_tested tinyNode 10 3 0).2.2 0 (by decide) rfl).2 (by decide)⟩

/-- C8: min-ordering of the frontier. The entry `ne` that an iteration of
`solve` takes from the queue as the top under `heap_t::operator<` is a queued
entry whose cost is at most the cost of every queued entry, in particular of
every entry that stays in the queue; the iteration expands that entry. The same
holds for any entry that the contract of the priority queue allows as top. -/
theorem solve_expands_min (N : DijkstraNode T) (fuel : Nat) (s : Dijkstra T)
    (ne : Nat × T) (rest : List (Nat × T))
    (h : extractTop heap_t.lt s.m_heap = some (ne, rest)) :
    List.Perm (ne :: rest) s.m_heap ∧ (∀ x ∈ s.m_heap, ne.1 ≤ x.1) ∧
    (∀ x ∈ rest, ne.1 ≤ x.1) ∧
    Dijkstra.solve N (fuel + 1) s = Dijkstra.solve N fuel (s.expand N ne rest) ∧
    (∀ e : Nat × T, (∀ x ∈ s.m_heap, heap_t.lt e x = false) → ∀ x ∈ s.m_heap, e.1 ≤ x.1) := by
  have hperm := extractTop_perm _ _ _ _ h
  have hmin := extractTop_min _ _ _ h
  refine ⟨hperm, hmin, ?_, ?_, ?_⟩
  · intro x hx
    exact hmin x (hperm.subset (List.mem_cons_of_mem _ hx))
  · simp [Dijkstra.solve, h]
  · intro e he x hx
    have := he x hx
    simp only [heap_t.lt, decide_eq_false_iff_not] at this
    omega

/-- Witness of C8: of the queued costs 4, 1, 3, 1 the first entry of cost 1 is
taken. -/
theorem solve_expands_min_witness :
    List.Perm ((1, 2) :: [(4, 1), (3, 3), (1, 5)]) [(4, 1), (1, 2), (3, 3), (1, 5)] ∧
    (∀ x ∈ [(4, 1), (1, 2), (3, 3), (1, 5)], (1, 2).1 ≤ x.1) :=
  ⟨(solve_expands_min tinyNode 0
      { m_lowest := 10, m_winner := 0, m_heap := [(4, 1), (1, 2), (3, 3), (1, 5)] }
      (1, 2) [(4, 1), (3, 3), (1, 5)] (by decide)).1,
    (solve_expands_min tinyNode 0
      { m_lowest := 10, m_winner := 0, m_heap := [(4, 1), (1, 2), (3, 3), (1, 5)] }
      (1, 2) [(4, 1), (3, 3), (1, 5)] (by decide)).2.1⟩


/-! ## Reading a grid -/

theorem readRow_eq : ∀ (is vec : List Nat),
    readRow is vec = vec ++ is.map (fun c => (c + 256 - 48) % 256) := by
  intro is
  induction is with
  | nil => intro vec; simp [readRow]
  | cons c is ih => intro vec; simp [readRow, ih]

theorem readRow_digits (l : List Nat) (h : ∀ c ∈ l, 48 ≤ c ∧ c ≤ 57) :
    readRow l [] = l.map (fun c => c - 48) := by
  rw [readRow_eq, List.nil_append]
  apply List.map_congr_left
  intro c hc
  have := h c hc
  omega

theorem unlines_cons (l : List Nat) (ls : List (List Nat)) :
    unlines (l :: ls) = l ++ 10 :: unlines ls := by
  simp [unlines]

theorem unlines_length_ge (ls : List (List Nat)) : ls.length ≤ (unlines ls).length := by
  induction ls with
  | nil => simp
  | cons l ls ih =>
    rw [unlines_cons]
    simp only [List.length_append, List.length_cons]
    omega

theorem getline_terminated : ∀ (l rest : List Nat), (∀ c ∈ l, c ≠ 10) →
    getline (l ++ 10 :: rest) = some (l, rest) := by
  intro l
  induction l with
  | nil => intro rest _; simp [getline]
  | cons c l ih =>
    intro rest h
    have hc : c ≠ 10 := h c (List.mem_cons_self _ _)
    have hl : ∀ d ∈ l, d ≠ 10 := fun d hd => h d (List.mem_cons_of_mem _ hd)
    simp [getline, hc, ih rest hl]

theorem getline_unterminated : ∀ l : List Nat, l ≠ [] → (∀ c ∈ l, c ≠ 10) →
    getline l = some (l, []) := by
  intro l
  induction l with
  | nil => intro h; exact absurd rfl h
  | cons c l ih =>
    intro _ h
    have hc : c ≠ 10 := h c (List.mem_cons_self _ _)
    have hl : ∀ d ∈ l, d ≠ 10 := fun d hd => h d (List.mem_cons_of_mem _ hd)
    cases l with
    | nil => simp [getline, hc]
    | cons d l => rw [getline, if_neg hc, ih (List.cons_ne_nil _ _) hl]

/-- The loop of `operator>>` on lines that are all terminated by a newline. -/
theorem readLoop_unlines : ∀ (ls : List (List Nat)) (fuel : Nat) (grid : List (List Nat)),
    (∀ l ∈ ls, ∀ c ∈ l, c ≠ 10) → ls.length < fuel →
    numericGrid.readLoop fuel (unlines ls) grid =
      some (grid ++ ls.map (fun l => readRow l [])) := by
  intro ls
  induction ls with
  | nil =>
    intro fuel grid _ hf
    obtain ⟨f, rfl⟩ := Nat.exists_eq_succ_of_ne_zero (Nat.ne_of_gt hf)
    simp [numericGrid.readLoop, unlines, getline]
  | cons l ls ih =>
    intro fuel grid h hf
    obtain ⟨f, rfl⟩ := Nat.exists_eq_succ_of_ne_zero (Nat.ne_of_gt (Nat.lt_of_le_of_lt (Nat.zero_le _) hf))
    have hl : ∀ c ∈ l, c ≠ 10 := h l (List.mem_cons_self _ _)
    have hls : ∀ l' ∈ ls, ∀ c ∈ l', c ≠ 10 := fun l' hl' => h l' (List.mem_cons_of_mem _ hl')
    have hf' : ls.length < f := by simp only [List.length_cons] at hf; omega
    rw [unlines_cons]
    simp only [numericGrid.readLoop, getline_terminated l _ hl]
    rw [ih f _ hls hf']
    simp

/-- The loop of `operator>>` on lines terminated by a newline followed by a
last line that is not empty and not terminated. -/
theorem readLoop_unlines_last : ∀ (ls : List (List Nat)) (last : List Nat) (fuel : Nat)
    (grid : List (List Nat)),
    (∀ l ∈ ls, ∀ c ∈ l, c ≠ 10) → last ≠ [] → (∀ c ∈ last, c ≠ 10) → ls.length + 1 < fuel →
    numericGrid.readLoop fuel (unlines ls ++ last) grid =
      some (grid ++ (ls ++ [last]).map (fun l => readRow l [])) := by
  intro ls
  induction ls with
  | nil =>
    intro last fuel grid _ hne hlast hf
    obtain ⟨f, rfl⟩ : ∃ f, fuel = f + 2 := ⟨fuel - 2, by simp only [List.length_nil] at hf; omega⟩
    simp [numericGrid.readLoop, unlines, getline_unterminated last hne hlast, getline]
  | cons l ls ih =>
    intro last fuel grid h hne hlast hf
    obtain ⟨f, rfl⟩ : ∃ f, fuel = f + 1 := ⟨fuel - 1, by omega⟩
    have hl : ∀ c ∈ l, c ≠ 10 := h l (List.mem_cons_self _ _)
    have hls : ∀ l' ∈ ls, ∀ c ∈ l', c ≠ 10 := fun l' hl' => h l' (List.mem_cons_of_mem _ hl')
    have hf' : ls.length + 1 < f := by simp only [List.length_cons] at hf; omega
    rw [unlines_cons, List.append_assoc, List.cons_append]
    simp only [numericGrid.readLoop, getline_terminated l _ hl]
    rw [ih last f _ hls hne hlast hf']
    simp

/-! ## The claims about `numericGrid` -/

/-- C9: grid parsing. For lines `ls` of decimal digits, reading the text in
which every line is terminated by a newline appends to the grid exactly one row
per line, the row of a line holding the values `c - '0'` of its characters in
order; reading the text in which the last line, not empty, lacks the final
newline gives the same grid. For the four lines of the test `size()` is 12. -/
theorem read_lines (ls : List (List Nat)) (map : numericGrid)
    (hdigit : ∀ l ∈ ls, ∀ c ∈ l, 48 ≤ c ∧ c ≤ 57) :
    numericGrid.read (unlines ls) map =
      some { m_grid := map.m_grid ++ ls.map (fun l => l.map (fun c => c - 48)) } ∧
    (∀ (init : List (List Nat)) (last : List Nat), ls = init ++ [last] → last ≠ [] →
      numericGrid.read (unlines init ++ last) map =
        some { m_grid := map.m_grid ++ ls.map (fun l => l.map (fun c => c - 48)) }) ∧
    (numericGrid.read test_data { m_grid := [] }).map numericGrid.size = some 12 := by
  have hnl : ∀ l ∈ ls, ∀ c ∈ l, c ≠ 10 := by
    intro l hl c hc
    have := hdigit l hl c hc
    omega
  have hrows : ls.map (fun l => readRow l []) = ls.map (fun l => l.map (fun c => c - 48)) :=
    List.map_congr_left (fun l hl => readRow_digits l (hdigit l hl))
  refine ⟨?_, ?_, by decide⟩
  · unfold numericGrid.read
    rw [readLoop_unlines ls _ map.m_grid hnl
      (Nat.lt_succ_of_le (unlines_length_ge ls)), hrows]
    rfl
  · intro init last hls hne
    subst hls
    have hinit : ∀ l ∈ init, ∀ c ∈ l, c ≠ 10 :=
      fun l hl => hnl l (List.mem_append.2 (Or.inl hl))
    have hlast : ∀ c ∈ last, c ≠ 10 :=
      hnl last (List.mem_append.2 (Or.inr (List.mem_singleton.2 rfl)))
    have hlen : 0 < last.length := List.length_pos.2 hne
    have hfuel : init.length + 1 < (unlines init ++ last).length + 1 := by
      have := unlines_length_ge init
      simp only [List.length_append]
      omega
    unfold numericGrid.read
    rw [readLoop_unlines_last init last _ map.m_grid hinit hne hlast hfuel, hrows]
    rfl

/-- Witness of C9: the two lines "12" and "3", with and without the final
newline, read into an empty grid. -/
theorem read_lines_witness :
    numericGrid.read [49, 50, 10, 51, 10] { m_grid := [] } = some { m_grid := [[1, 2], [3]] } ∧
    numericGrid.read [49, 50, 10, 51] { m_grid := [] } = some { m_grid := [[1, 2], [3]] } :=
  ⟨(read_lines [[49, 50], [51]] { m_grid := [] } (by decide)).1,
    (read_lines [[49, 50], [51]] { m_grid := [] } (by decide)).2.1 [[49, 50]] [51] rfl
      (by decide)⟩

/-! ## Iterating over a grid -/

theorem getElem?_append_cons_length {α : Type} (pre : List α) (x : α) (post : List α) :
    (pre ++ x :: post)[pre.length]? = some x := by
  induction pre with
  | nil => simp
  | cons a pre ih => simpa using ih

theorem getD_append_cons_length {α : Type} (pre : List α) (x d : α) (post : List α) :
    (pre ++ x :: post).getD pre.length d = x := by
  rw [List.getD_eq_getElem?_getD, getElem?_append_cons_length]
  rfl

theorem flatten_length_const (rows : List (List Nat)) (len : Nat)
    (h : ∀ row ∈ rows, row.length = len) : rows.flatten.length = rows.length * len := by
  induction rows with
  | nil => simp
  | cons row rows ih =>
    have h1 : row.length = len := h row (List.mem_cons_self _ _)
    have h2 := ih (fun r hr => h r (List.mem_cons_of_mem _ hr))
    simp only [List.flatten_cons, List.length_append, List.length_cons, h1, h2]
    rw [Nat.add_mul, Nat.one_mul, Nat.add_comm]

/-- The copy loop started at the cell `v` that follows the cells `rowpre` in the
row that follows the rows `pre`: it appends `v`, the rest `rowpost` of the row
and the rows `post` in order, and stops. -/
theorem copyFrom_at (g : numericGrid) : ∀ (fuel : Nat) (pre : List (List Nat))
    (rowpre : List Nat) (v : Nat) (rowpost : List Nat) (post : List (List Nat))
    (tmp : List Nat),
    (∀ row ∈ post, row ≠ []) → g.m_grid = pre ++ (rowpre ++ v :: rowpost) :: post →
    (v :: rowpost ++ post.flatten).length < fuel →
    numericGrid.copyFrom g fuel
      { m_rowsIt := pre.length, m_rowsEnd := g.m_grid.length,
        m_cIt := (pre.length, rowpre.length),
        m_cEnd := (pre.length, (rowpre ++ v :: rowpost).length) } tmp =
      some (tmp ++ (v :: rowpost ++ post.flatten)) := by
  intro fuel
  induction fuel with
  | zero => intro pre rowpre v rowpost post tmp _ _ hf; exact absurd hf (Nat.not_lt_zero _)
  | succ fuel ih =>
    intro pre rowpre v rowpost post tmp hpost hg hf
    have hlen : g.m_grid.length = pre.length + 1 + post.length := by
      rw [hg]; simp only [List.length_append, List.length_cons]; omega
    have hend : numericGrid.Iterator.atEnd
        { m_rowsIt := pre.length, m_rowsEnd := g.m_grid.length,
          m_cIt := (pre.length, rowpre.length),
          m_cEnd := (pre.length, (rowpre ++ v :: rowpost).length) } = false := by
      have : pre.length ≠ g.m_grid.length := by omega
      simp [numericGrid.Iterator.atEnd, this]
    have hderef : numericGrid.Iterator.deref g
        { m_rowsIt := pre.length, m_rowsEnd := g.m_grid.length,
          m_cIt := (pre.length, rowpre.length),
          m_cEnd := (pre.length, (rowpre ++ v :: rowpost).length) } = some v := by
      simp only [numericGrid.Iterator.deref]
      rw [hg, getElem?_append_cons_length]
      exact getElem?_append_cons_length rowpre v rowpost
    rw [numericGrid.copyFrom]
    simp only [hend, hderef, Bool.false_eq_true, if_false]
    cases rowpost with
    | cons v' rp =>
      have hnext : numericGrid.Iterator.next g
          { m_rowsIt := pre.length, m_rowsEnd := g.m_grid.length,
            m_cIt := (pre.length, rowpre.length),
            m_cEnd := (pre.length, (rowpre ++ v :: v' :: rp).length) } =
          { m_rowsIt := pre.length, m_rowsEnd := g.m_grid.length,
            m_cIt := (pre.length, (rowpre ++ [v]).length),
            m_cEnd := (pre.length, ((rowpre ++ [v]) ++ v' :: rp).length) } := by
        simp [numericGrid.Iterator.next]
      rw [hnext]
      have hg' : g.m_grid = pre ++ ((rowpre ++ [v]) ++ v' :: rp) :: post := by
        rw [hg]; simp
      have hf' : (v' :: rp ++ post.flatten).length < fuel := by
        simp only [List.cons_append, List.length_cons] at hf ⊢; omega
      rw [ih pre (rowpre ++ [v]) v' rp post (tmp ++ [v]) hpost hg' hf']
      simp
    | nil =>
      cases post with
      | nil =>
        have hnext : numericGrid.Iterator.atEnd (numericGrid.Iterator.next g
            { m_rowsIt := pre.length, m_rowsEnd := g.m_grid.length,
              m_cIt := (pre.length, rowpre.length),
              m_cEnd := (pre.length, (rowpre ++ [v]).length) }) = true := by
          have : pre.length + 1 = g.m_grid.length := by
            rw [hlen]; simp
          simp [numericGrid.Iterator.next, numericGrid.Iterator.atEnd, this]
        obtain ⟨f, rfl⟩ : ∃ f, fuel = f + 1 := ⟨fuel - 1, by
          simp only [List.flatten_nil, List.append_nil, List.length_singleton] at hf; omega⟩
        rw [numericGrid.copyFrom, hnext]
        simp
      | cons row' post' =>
        have hrow' : row' ≠ [] := hpost row' (List.mem_cons_self _ _)
        obtain ⟨v', rp, rfl⟩ : ∃ v' rp, row' = v' :: rp := by
          cases row' with
          | nil => exact absurd rfl hrow'
          | cons a b => exact ⟨a, b, rfl⟩
        have hg' : g.m_grid = (pre ++ [rowpre ++ [v]]) ++ ([] ++ v' :: rp) :: post' := by
          rw [hg]; simp
        have hget : g.m_grid.getD (pre.length + 1) [] = v' :: rp := by
          have := getD_append_cons_length (pre ++ [rowpre ++ [v]]) (v' :: rp) [] post'
          rw [hg']
          simpa using this
        have hnext : numericGrid.Iterator.next g
            { m_rowsIt := pre.length, m_rowsEnd := g.m_grid.length,
              m_cIt := (pre.length, rowpre.length),
              m_cEnd := (pre.length, (rowpre ++ [v]).length) } =
            { m_rowsIt := (pre ++ [rowpre ++ [v]]).length, m_rowsEnd := g.m_grid.length,
              m_cIt := ((pre ++ [rowpre ++ [v]]).length, ([] : List Nat).length),
              m_cEnd := ((pre ++ [rowpre ++ [v]]).length, ([] ++ v' :: rp).length) } := by
          have : pre.length + 1 ≠ g.m_grid.length := by
            rw [hlen]; simp
          have hget' : g.m_grid[pre.length + 1]?.getD [] = v' :: rp := by
            rw [← List.getD_eq_getElem?_getD]; exact hget
          simp [numericGrid.Iterator.next, this, hget']
        rw [hnext]
        have hf' : (v' :: rp ++ post'.flatten).length < fuel := by
          simp only [List.nil_append, List.flatten_cons, List.cons_append, List.length_cons,
            List.length_append] at hf ⊢
          omega
        rw [ih (pre ++ [rowpre ++ [v]]) [] v' rp post' (tmp ++ [v])
          (fun r hr => hpost r (List.mem_cons_of_mem _ hr)) hg' hf']
        simp

/-- C10: grid iteration. For a grid that has a row and whose rows all have the
same length `len`, not zero, copying from `begin()` to the end sentinel stops
(whenever more than `size()` comparisons with the sentinel are allowed) and
yields the cells in row-major order, the rows one after the other, each from
left to right; these are exactly `size()` elements. -/
theorem copy_row_major (g : numericGrid) (len fuel : Nat) (hne : g.m_grid ≠ [])
    (hlen : 0 < len) (hrows : ∀ row ∈ g.m_grid, row.length = len) (hfuel : g.size < fuel) :
    g.copy fuel = some g.m_grid.flatten ∧ g.m_grid.flatten.length = g.size := by
  have hsize : g.m_grid.flatten.length = g.size := by
    rw [flatten_length_const g.m_grid len hrows]
    unfold numericGrid.size
    cases hg : g.m_grid with
    | nil => exact absurd hg hne
    | cons row0 rest =>
      have : row0.length = len := hrows row0 (by rw [hg]; exact List.mem_cons_self _ _)
      simp only [this]
  refine ⟨?_, hsize⟩
  cases hg : g.m_grid with
  | nil => exact absurd hg hne
  | cons row0 rest =>
    have h0 : row0.length = len := hrows row0 (by rw [hg]; exact List.mem_cons_self _ _)
    obtain ⟨v, rp, rfl⟩ : ∃ v rp, row0 = v :: rp := by
      cases row0 with
      | nil => simp only [List.length_nil] at h0; omega
      | cons a b => exact ⟨a, b, rfl⟩
    have hrest : ∀ row ∈ rest, row ≠ [] := by
      intro row hr hnil
      have := hrows row (by rw [hg]; exact List.mem_cons_of_mem _ hr)
      rw [hnil] at this
      simp only [List.length_nil] at this
      omega
    have hf : (v :: rp ++ rest.flatten).length < fuel := by
      have : (v :: rp ++ rest.flatten) = g.m_grid.flatten := by rw [hg]; simp
      rw [this, hsize]; exact hfuel
    have := copyFrom_at g fuel [] [] v rp rest [] hrest (by rw [hg]; rfl) hf
    simp only [numericGrid.copy, numericGrid.begin, hg]
    simp only [List.length_nil, List.nil_append, hg] at this
    rw [this]
    simp

/-- Witness of C10 on the grid of the test: the twelve cells row by row. -/
theorem copy_row_major_witness :
    numericGrid.copy { m_grid := [[1, 1, 1], [2, 2, 2], [3, 3, 3], [4, 4, 4]] } 13 =
      some [1, 1, 1, 2, 2, 2, 3, 3, 3, 4, 4, 4] ∧
    [1, 1, 1, 2, 2, 2, 3, 3, 3, 4, 4, 4].length =
      numericGrid.size { m_grid := [[1, 1, 1], [2, 2, 2], [3, 3, 3], [4, 4, 4]] } :=
  copy_row_major { m_grid := [[1, 1, 1], [2, 2, 2], [3, 3, 3], [4, 4, 4]] } 3 13
    (by decide) (by decide) (by decide) (by decide)

/-! ## Column views, dimensions and indexing -/

/-- The copy loop of a column view started at the row that follows the rows
`pre`: it appends the cell in column `idx` of every remaining row. -/
theorem columnCopyFrom_at (g : numericGrid) (idx : Nat) : ∀ (post pre : List (List Nat))
    (fuel : Nat) (tmp : List Nat),
    g.m_grid = pre ++ post → (∀ row ∈ post, idx < row.length) → post.length < fuel →
    numericGrid.ColumnView.copyFrom g fuel
      { m_cIt := pre.length, m_end := g.m_grid.length, m_column := idx } tmp =
      some (tmp ++ post.map (fun row => row.getD idx 0)) := by
  intro post
  induction post with
  | nil =>
    intro pre fuel tmp hg _ hf
    obtain ⟨f, rfl⟩ : ∃ f, fuel = f + 1 := ⟨fuel - 1, by simp only [List.length_nil] at hf; omega⟩
    have hlen : g.m_grid.length = pre.length := by rw [hg]; simp
    simp [numericGrid.ColumnView.copyFrom, numericGrid.ColumnView.Iterator.atEnd, hlen]
  | cons row post ih =>
    intro pre fuel tmp hg hrow hf
    obtain ⟨f, rfl⟩ : ∃ f, fuel = f + 1 := ⟨fuel - 1, by omega⟩
    have hlen : g.m_grid.length = pre.length + 1 + post.length := by
      rw [hg]; simp only [List.length_append, List.length_cons]; omega
    have hidx : idx < row.length := hrow row (List.mem_cons_self _ _)
    have hend : numericGrid.ColumnView.Iterator.atEnd
        { m_cIt := pre.length, m_end := g.m_grid.length, m_column := idx } = false := by
      have : pre.length ≠ g.m_grid.length := by omega
      simp [numericGrid.ColumnView.Iterator.atEnd, this]
    have hcell : row[idx]? = some (row.getD idx 0) := by
      rw [List.getD_eq_getElem?_getD, List.getElem?_eq_getElem hidx]
      rfl
    have hderef : numericGrid.ColumnView.Iterator.deref g
        { m_cIt := pre.length, m_end := g.m_grid.length, m_column := idx } =
        some (row.getD idx 0) := by
      simp only [numericGrid.ColumnView.Iterator.deref]
      rw [hg, getElem?_append_cons_length]
      exact hcell
    have hg' : g.m_grid = (pre ++ [row]) ++ post := by rw [hg]; simp
    have hf' : post.length < f := by simp only [List.length_cons] at hf; omega
    have hnext : numericGrid.ColumnView.Iterator.next
        { m_cIt := pre.length, m_end := g.m_grid.length, m_column := idx } =
        { m_cIt := (pre ++ [row]).length, m_end := g.m_grid.length, m_column := idx } := by
      simp [numericGrid.ColumnView.Iterator.next]
    rw [numericGrid.ColumnView.copyFrom]
    simp only [hend, hderef, Bool.false_eq_true, if_false]
    rw [hnext, ih (pre ++ [row]) f (tmp ++ [row.getD idx 0]) hg'
      (fun r hr => hrow r (List.mem_cons_of_mem _ hr)) hf']
    simp

/-- C11: column view. For a column index `idx` smaller than the length of every
row, copying `column(idx)` from `begin()` to the end sentinel stops (whenever
more than `rows()` comparisons with the sentinel are allowed) and yields
exactly `rows()` elements, the `k`-th of which is the cell `grid[k][idx]`. For
the grid read from the test data, `column(0)` yields 1, 2, 3, 4. -/
theorem column_copy (g : numericGrid) (idx fuel : Nat)
    (hidx : ∀ row ∈ g.m_grid, idx < row.length) (hfuel : g.rows < fuel) :
    (∃ out : List Nat, (g.column idx).copy g fuel = some out ∧ out.length = g.rows ∧
      ∀ k, k < g.rows → ∃ row v, g.row k = some row ∧ row[idx]? = some v ∧
        out[k]? = some v) ∧
    ((numericGrid.read test_data { m_grid := [] }).bind
      (fun grid => (grid.column 0).copy grid 5) = some [1, 2, 3, 4]) := by
  refine ⟨⟨g.m_grid.map (fun row => row.getD idx 0), ?_, ?_, ?_⟩, by decide⟩
  · have := columnCopyFrom_at g idx g.m_grid [] fuel [] rfl hidx hfuel
    simpa [numericGrid.ColumnView.copy, numericGrid.ColumnView.begin,
      numericGrid.column] using this
  · simp [numericGrid.rows]
  · intro k hk
    have hk' : k < g.m_grid.length := hk
    have hmem : g.m_grid[k] ∈ g.m_grid := List.getElem_mem _
    have hlt : idx < (g.m_grid[k]).length := hidx _ hmem
    refine ⟨g.m_grid[k], (g.m_grid[k])[idx], ?_, ?_, ?_⟩
    · simp [numericGrid.row, List.getElem?_eq_getElem hk']
    · exact List.getElem?_eq_getElem hlt
    · rw [List.getElem?_map, List.getElem?_eq_getElem hk']
      simp [List.getD_eq_getElem?_getD, List.getElem?_eq_getElem hlt]

/-- Witness of C11 on a grid with rows of different lengths: column 1 of the
rows 1 2 3 and 4 5. -/
theorem column_copy_witness :
    ∃ out : List Nat, numericGrid.ColumnView.copy { m_grid := [[1, 2, 3], [4, 5]] }
      (numericGrid.column { m_grid := [[1, 2, 3], [4, 5]] } 1) 3 = some out ∧
      out.length = numericGrid.rows { m_grid := [[1, 2, 3], [4, 5]] } ∧
      ∀ k, k < numericGrid.rows { m_grid := [[1, 2, 3], [4, 5]] } → ∃ row v,
        numericGrid.row { m_grid := [[1, 2, 3], [4, 5]] } k = some row ∧
        row[1]? = some v ∧ out[k]? = some v :=
  (column_copy { m_grid := [[1, 2, 3], [4, 5]] } 1 3 (by decide) (by decide)).1

/-- C12: grid dimensions. `size()` is `rows() * columns()`, where `rows()` is
the number of stored rows and `columns()` the length of the first row; for the
empty grid all three are 0. -/
theorem size_eq_rows_mul_columns (g : numericGrid) :
    g.size = g.rows * g.columns ∧ g.rows = g.m_grid.length ∧
    (∀ row0 rest, g.m_grid = row0 :: rest → g.columns = row0.length) ∧
    (numericGrid.size { m_grid := [] } = 0 ∧ numericGrid.rows { m_grid := [] } = 0 ∧
      numericGrid.columns { m_grid := [] } = 0) := by
  refine ⟨?_, rfl, ?_, rfl, rfl, rfl⟩
  · cases hg : g.m_grid with
    | nil => simp [numericGrid.size, numericGrid.rows, numericGrid.columns, hg]
    | cons row0 rest => simp [numericGrid.size, numericGrid.rows, numericGrid.columns, hg]
  · intro row0 rest hg
    simp [numericGrid.columns, hg]

/-- C13: position indexing. For a pair `(x, y)` with `y < rows()` and `x`
smaller than the length of row `y`, indexing with the pair returns the cell
`grid[y][x]`: the first component is the column, the second the row. -/
theorem index_pair (g : numericGrid) (x y : Nat) (hy : y < g.rows)
    (hx : ∀ row, g.row y = some row → x < row.length) :
    ∃ row v, g.row y = some row ∧ row[x]? = some v ∧ g.index (x, y) = some v := by
  have hy' : y < g.m_grid.length := hy
  have hrow : g.row y = some g.m_grid[y] := by
    simp [numericGrid.row, List.getElem?_eq_getElem hy']
  have hlt : x < (g.m_grid[y]).length := hx _ hrow
  refine ⟨g.m_grid[y], (g.m_grid[y])[x], hrow, List.getElem?_eq_getElem hlt, ?_⟩
  simp [numericGrid.index, List.getElem?_eq_getElem hy', List.getElem?_eq_getElem hlt]

/-- Witness of C13: in the rows 1 2 3 and 4 5 the pair `(2, 0)` is the cell 3
of the first row. -/
theorem index_pair_witness :
    ∃ row v, numericGrid.row { m_grid := [[1, 2, 3], [4, 5]] } 0 = some row ∧
      row[2]? = some v ∧ numericGrid.index { m_grid := [[1, 2, 3], [4, 5]] } (2, 0) = some v :=
  index_pair { m_grid := [[1, 2, 3], [4, 5]] } 2 0 (by decide) (by
    intro row h
    have : row = [1, 2, 3] := by
      simp only [numericGrid.row] at h
      exact (Option.some.inj h).symm
    rw [this]; decide)

/-! ## More about the loops of `solve` -/

theorem run_snoc (N : DijkstraNode T) {a b c : Dijkstra T} (h : Run N a b) (hi : Iter N b c) :
    Run N a c := by
  induction h with
  | refl s => exact Run.step hi (Run.refl _)
  | step h1 _ ih => exact Run.step h1 (ih hi)

/-- The queue after the loop over the successors is the queue before it
followed by the kept successors. -/
theorem foldl_visit_heap_eq (N : DijkstraNode T) (l : List (Nat × T)) :
    ∀ s : Dijkstra T, (l.foldl (Dijkstra.visit N) s).m_heap =
      s.m_heap ++ keptSuccessors N s.m_lowest l := by
  induction l with
  | nil => intro s; simp [keptSuccessors]
  | cons n l ih =>
    intro s
    rw [List.foldl_cons, ih]
    rcases visit_cases N s n with ⟨hv, h | ⟨hc, he⟩⟩ | ⟨hv, hc, hlt⟩ | ⟨hv, hc, hle⟩
    · rw [hv]; simp [keptSuccessors, h]
    · have h1 : ¬ s.m_lowest < n.1 := by omega
      rw [hv]; simp [keptSuccessors, h1, hc, he]
    · have h1 : ¬ s.m_lowest < n.1 := by omega
      have h2 : min s.m_lowest n.1 = n.1 := Nat.min_eq_right (Nat.le_of_lt hlt)
      rw [hv]; simp [keptSuccessors, h1, hc, h2]
    · have h1 : ¬ s.m_lowest < n.1 := by omega
      rw [hv]; simp [keptSuccessors, h1, hc, Dijkstra.push]

theorem expand_heap_eq (N : DijkstraNode T) (s : Dijkstra T) (ne : Nat × T)
    (rest : List (Nat × T)) :
    (s.expand N ne rest).m_heap = rest ++ keptSuccessors N s.m_lowest (N.next ne.2) :=
  foldl_visit_heap_eq N (N.next ne.2) { s with m_heap := rest }

/-- The bookkeeping of a finished `solve`: the expanded entries are the queued
entries and the pushed ones, and `next()` was called once on each of them. -/
theorem solve_log (N : DijkstraNode T) :
    ∀ (fuel : Nat) (s : Dijkstra T) (r : Nat × T), Dijkstra.solve N fuel s = some r →
      List.Perm (Dijkstra.expanded N fuel s) (s.m_heap ++ Dijkstra.pushed N fuel s) ∧
      Dijkstra.generated N fuel s =
        (Dijkstra.expanded N fuel s).flatMap (fun e => N.next e.2) := by
  intro fuel
  induction fuel with
  | zero => intro s r h; simp [Dijkstra.solve] at h
  | succ fuel ih =>
    intro s r h
    simp only [Dijkstra.solve] at h
    simp only [Dijkstra.expanded, Dijkstra.pushed, Dijkstra.generated]
    cases hx : extractTop heap_t.lt s.m_heap with
    | none =>
      have hs : s.m_heap = [] := (extractTop_eq_none _ _).1 hx
      simp [hs]
    | some q =>
      obtain ⟨ne, rest⟩ := q
      rw [hx] at h
      obtain ⟨h1, h2⟩ := ih _ r h
      have hperm : List.Perm (ne :: rest) s.m_heap := extractTop_perm _ _ _ _ hx
      have hheap := expand_heap_eq N s ne rest
      have hdrop : (s.expand N ne rest).m_heap.drop rest.length =
          keptSuccessors N s.m_lowest (N.next ne.2) := by
        rw [hheap, List.drop_left]
      simp only [hdrop, h2, List.flatMap_cons]
      refine ⟨?_, trivial⟩
      rw [hheap] at h1
      have h3 : List.Perm (ne :: Dijkstra.expanded N fuel (s.expand N ne rest))
          (ne :: (rest ++ keptSuccessors N s.m_lowest (N.next ne.2) ++
            Dijkstra.pushed N fuel (s.expand N ne rest))) := List.Perm.cons ne h1
      refine h3.trans ?_
      have h4 : List.Perm ((ne :: rest) ++ (keptSuccessors N s.m_lowest (N.next ne.2) ++
            Dijkstra.pushed N fuel (s.expand N ne rest)))
          (s.m_heap ++ (keptSuccessors N s.m_lowest (N.next ne.2) ++
            Dijkstra.pushed N fuel (s.expand N ne rest))) := List.Perm.append_right _ hperm
      simpa [List.append_assoc] using h4

/-- After the first iteration no queued entry is completed. -/
theorem run_open (N : DijkstraNode T) (keyMax : Nat) (start : T) (k : Nat) (s : Dijkstra T)
    (h : Run N (Dijkstra.init N keyMax start k) s) :
    s = Dijkstra.init N keyMax start k ∨ ∀ e ∈ s.m_heap, N.completed e.2 = false := by
  have hkeep : ∀ a b : Dijkstra T, Run N a b → (∀ e ∈ a.m_heap, N.completed e.2 = false) →
      ∀ e ∈ b.m_heap, N.completed e.2 = false := by
    intro a b hab
    induction hab with
    | refl s => intro h; exact h
    | step hi _ ih =>
      intro ha
      obtain ⟨ne, rest, hperm, _, rfl⟩ := hi
      apply ih
      intro e he
      rcases foldl_visit_heap_mem N _ _ e he with h1 | ⟨_, h2, _⟩
      · exact ha e (hperm.subset (List.mem_cons_of_mem _ h1))
      · exact h2
  cases h with
  | refl => exact Or.inl rfl
  | step hi hrun =>
    right
    obtain ⟨ne, rest, hperm, _, rfl⟩ := hi
    apply hkeep _ _ hrun
    have hlen := hperm.length_eq
    have hrest : rest = [] := by
      simp only [Dijkstra.init, Dijkstra.push, List.nil_append, List.length_cons,
        List.length_nil] at hlen
      exact List.length_eq_zero.1 (by omega)
    intro e he
    rcases foldl_visit_heap_mem N _ _ e he with h1 | ⟨_, h2, _⟩
    · rw [hrest] at h1; cases h1
    · exact h2

/-- A state reached while the successors of a queued entry are visited keeps
the pairing of `m_lowest` and `m_winner`. -/
theorem paired_prefix (N : DijkstraNode T) (keyMax : Nat) (start : T) (s : Dijkstra T)
    (hinv : Inv N keyMax start s) (ne : Nat × T) (hne : ne ∈ s.m_heap)
    (rest : List (Nat × T)) (l1 l2 : List (Nat × T)) (hl : N.next ne.2 = l1 ++ l2) :
    Paired N keyMax start (l1.foldl (Dijkstra.visit N) { s with m_heap := rest }) := by
  have hsrc := hinv.src ne hne
  rcases foldl_visit_winner N l1 { s with m_heap := rest } with
    ⟨h1, h2⟩ | ⟨p, hp, hc, hlt, h1, h2⟩
  · rcases hinv.att with ⟨a1, a2⟩ | ⟨a1, a2, a3⟩
    · left
      exact ⟨h1.trans a1, h2.trans a2⟩
    · right
      rw [h1, h2]
      exact ⟨a1, a2, a3⟩
  · right
    rw [h1, h2]
    have hp' : p ∈ N.next ne.2 := by rw [hl]; exact List.mem_append.2 (Or.inl hp)
    refine ⟨?_, desc_of_src N start ne p hsrc hp', hc⟩
    have hk : s.m_lowest ≤ keyMax := by
      rcases hinv.att with ⟨a1, _⟩ | ⟨a1, _⟩
      · exact Nat.le_of_eq a1
      · exact Nat.le_of_lt a1
    exact Nat.lt_of_lt_of_le hlt hk

/-! ## The node type without progress -/

theorem stuck_expand (keyMax : Nat) :
    (Dijkstra.init stuckNode keyMax () 0).expand stuckNode (0, ()) [] =
      Dijkstra.init stuckNode keyMax () 0 := by
  simp [Dijkstra.expand, Dijkstra.init, Dijkstra.push, Dijkstra.visit, stuckNode]

theorem stuck_run (keyMax : Nat) (s : Dijkstra Unit)
    (h : Run stuckNode (Dijkstra.init stuckNode keyMax () 0) s) :
    s = Dijkstra.init stuckNode keyMax () 0 := by
  generalize hi : Dijkstra.init stuckNode keyMax () 0 = a at h
  induction h with
  | refl s => rfl
  | step hit _ ih =>
    subst hi
    obtain ⟨ne, rest, hperm, _, rfl⟩ := hit
    have hlen := hperm.length_eq
    have hrest : rest = [] := by
      simp only [Dijkstra.init, Dijkstra.push, List.nil_append, List.length_cons,
        List.length_nil] at hlen
      exact List.length_eq_zero.1 (by omega)
    subst hrest
    have hne : ne = (0, ()) := by
      have := hperm.subset (List.mem_cons_self _ _)
      simpa [Dijkstra.init, Dijkstra.push] using this
    subst hne
    rw [stuck_expand] at ih
    exact ih rfl

/-! ## Where the queued entries come from -/

theorem sourced_init (N : DijkstraNode T) (keyMax : Nat) (start : T) (k : Nat) :
    Sourced N start k (Dijkstra.init N keyMax start k) := by
  intro e he
  simp only [Dijkstra.init, Dijkstra.push, List.nil_append, List.mem_singleton] at he
  exact Or.inl he

theorem reach_of_sourced (N : DijkstraNode T) (start : T) (k : Nat) (e p : Nat × T)
    (he : e = (k, start) ∨ Reach N start e.1 e.2) (hp : p ∈ N.next e.2) :
    Reach N start p.1 p.2 := by
  rcases he with he | he
  · rw [he] at hp; exact Reach.first hp
  · exact Reach.step he hp

theorem sourced_expand (N : DijkstraNode T) (start : T) (k : Nat) (s : Dijkstra T)
    (ne : Nat × T) (rest : List (Nat × T)) (hperm : List.Perm (ne :: rest) s.m_heap)
    (hs : Sourced N start k s) : Sourced N start k (s.expand N ne rest) := by
  intro e he
  rcases foldl_visit_heap_mem N _ _ e he with h | ⟨h, _, _⟩
  · exact hs e (hperm.subset (List.mem_cons_of_mem _ h))
  · right
    exact reach_of_sourced N start k ne e (hs ne (hperm.subset (List.mem_cons_self _ _))) h

theorem sourced_run (N : DijkstraNode T) (start : T) (k : Nat) (s s' : Dijkstra T)
    (hrun : Run N s s') (hs : Sourced N start k s) : Sourced N start k s' := by
  induction hrun with
  | refl s => exact hs
  | step hi _ ih =>
    obtain ⟨ne, rest, hperm, _, rfl⟩ := hi
    exact ih (sourced_expand N start k _ ne rest hperm hs)

/-! ## The order of the expansions -/

/-- After an iteration every queued entry costs at least as much as the entry
that was expanded, when that entry was a cheapest one and none of its
successors is cheaper than it. -/
theorem expand_ge (N : DijkstraNode T) (s : Dijkstra T) (ne : Nat × T)
    (rest : List (Nat × T)) (hmin : ∀ x ∈ rest, ne.1 ≤ x.1)
    (hchild : ∀ p ∈ N.next ne.2, ne.1 ≤ p.1) :
    ∀ e ∈ (s.expand N ne rest).m_heap, ne.1 ≤ e.1 := by
  intro e he
  rcases foldl_visit_heap_mem N _ _ e he with h | ⟨h, _, _⟩
  · exact hmin e h
  · exact hchild e h

theorem expanded_ge (N : DijkstraNode T) (start : T) (k : Nat)
    (hstart : ∀ p ∈ N.next start, k ≤ p.1)
    (hmono : ∀ c n, Reach N start c n → ∀ p ∈ N.next n, c ≤ p.1) :
    ∀ (fuel : Nat) (s : Dijkstra T) (m : Nat), Sourced N start k s →
      (∀ e ∈ s.m_heap, m ≤ e.1) → ∀ x ∈ Dijkstra.expanded N fuel s, m ≤ x.1 := by
  intro fuel
  induction fuel with
  | zero => intro s m _ _ x hx; simp [Dijkstra.expanded] at hx
  | succ fuel ih =>
    intro s m hs hm x hx
    simp only [Dijkstra.expanded] at hx
    cases hq : extractTop heap_t.lt s.m_heap with
    | none => rw [hq] at hx; cases hx
    | some q =>
      obtain ⟨ne, rest⟩ := q
      rw [hq] at hx
      have hperm := extractTop_perm _ _ _ _ hq
      have hne : ne ∈ s.m_heap := hperm.subset (List.mem_cons_self _ _)
      have hchild : ∀ p ∈ N.next ne.2, ne.1 ≤ p.1 := by
        rcases hs ne hne with h | h
        · rw [h]; exact hstart
        · exact hmono _ _ h
      rcases List.mem_cons.1 hx with rfl | hx
      · exact hm _ hne
      · refine ih _ m (sourced_expand N start k s ne rest hperm hs) ?_ x hx
        intro e he
        rcases foldl_visit_heap_mem N _ _ e he with h | ⟨h, _, _⟩
        · exact hm e (hperm.subset (List.mem_cons_of_mem _ h))
        · exact Nat.le_trans (hm _ hne) (hchild e h)

theorem expanded_pairwise (N : DijkstraNode T) (start : T) (k : Nat)
    (hstart : ∀ p ∈ N.next start, k ≤ p.1)
    (hmono : ∀ c n, Reach N start c n → ∀ p ∈ N.next n, c ≤ p.1) :
    ∀ (fuel : Nat) (s : Dijkstra T), Sourced N start k s →
      List.Pairwise (fun a b => a.1 ≤ b.1) (Dijkstra.expanded N fuel s) := by
  intro fuel
  induction fuel with
  | zero => intro s _; simp [Dijkstra.expanded]
  | succ fuel ih =>
    intro s hs
    simp only [Dijkstra.expanded]
    cases hq : extractTop heap_t.lt s.m_heap with
    | none => exact List.Pairwise.nil
    | some q =>
      obtain ⟨ne, rest⟩ := q
      have hperm := extractTop_perm _ _ _ _ hq
      have hne : ne ∈ s.m_heap := hperm.subset (List.mem_cons_self _ _)
      have hmin := extractTop_min _ _ _ hq
      have hchild : ∀ p ∈ N.next ne.2, ne.1 ≤ p.1 := by
        rcases hs ne hne with h | h
        · rw [h]; exact hstart
        · exact hmono _ _ h
      have hs' := sourced_expand N start k s ne rest hperm hs
      refine List.Pairwise.cons ?_ (ih _ hs')
      intro x hx
      refine expanded_ge N start k hstart hmono fuel _ ne.1 hs' ?_ x hx
      exact expand_ge N s ne rest
        (fun y hy => hmin y (hperm.subset (List.mem_cons_of_mem _ hy))) hchild

/-! ## Termination -/

theorem weight_pos (N : DijkstraNode T) (d : Nat) (n : T) : 1 ≤ weight N d n := by
  cases d with
  | zero => exact Nat.le_refl _
  | succ d => simp only [weight]; omega

theorem weight_mono (N : DijkstraNode T) : ∀ (d d' : Nat) (n : T), d ≤ d' →
    weight N d n ≤ weight N d' n := by
  intro d
  induction d with
  | zero => intro d' n _; exact weight_pos N d' n
  | succ d ih =>
    intro d' n h
    obtain ⟨e, rfl⟩ : ∃ e, d' = e + 1 := ⟨d' - 1, by omega⟩
    simp only [weight]
    have : ((N.next n).map (fun p => weight N d p.2)).sum ≤
        ((N.next n).map (fun p => weight N e p.2)).sum :=
      List.sum_le_sum (fun p _ => ih e p.2 (by omega))
    omega

theorem kept_nil (N : DijkstraNode T) : ∀ (l : List (Nat × T)) (low : Nat),
    (∀ p ∈ l, low < p.1) → keptSuccessors N low l = [] := by
  intro l
  induction l with
  | nil => intro low _; rfl
  | cons n l ih =>
    intro low h
    have h1 : low < n.1 := h n (List.mem_cons_self _ _)
    simp only [keptSuccessors, h1, if_true]
    exact ih low (fun p hp => h p (List.mem_cons_of_mem _ hp))

/-- The kept successors of an entry of cost `c` weigh no more than all its
successors one level below it. -/
theorem kept_weight (N : DijkstraNode T) (B c d : Nat) (hd : B - c = d + 1) :
    ∀ (l : List (Nat × T)) (low : Nat), low ≤ B → (∀ p ∈ l, c < p.1) →
      ((keptSuccessors N low l).map (fun e => weight N (B - e.1) e.2)).sum ≤
        (l.map (fun p => weight N d p.2)).sum := by
  intro l
  induction l with
  | nil => intro low _ _; simp [keptSuccessors]
  | cons n l ih =>
    intro low hlow h
    have hn : c < n.1 := h n (List.mem_cons_self _ _)
    have hl : ∀ p ∈ l, c < p.1 := fun p hp => h p (List.mem_cons_of_mem _ hp)
    simp only [keptSuccessors, List.map_cons, List.sum_cons]
    by_cases h1 : low < n.1
    · simp only [h1, if_true]
      have := ih low hlow hl
      omega
    · by_cases h2 : N.completed n.2 = true
      · simp only [h1, h2, if_false, if_true]
        have := ih (min low n.1) (Nat.le_trans (Nat.min_le_left _ _) hlow) hl
        omega
      · simp only [h1, h2, if_false, List.map_cons, List.sum_cons, Bool.false_eq_true]
        have := ih low hlow hl
        have hw : weight N (B - n.1) n.2 ≤ weight N d n.2 :=
          weight_mono N _ _ _ (by omega)
        omega

/-- An iteration lowers `work` when every successor of the expanded entry
costs more than that entry. -/
theorem work_expand_lt (N : DijkstraNode T) (keyMax : Nat) (s : Dijkstra T) (ne : Nat × T)
    (rest : List (Nat × T)) (hperm : List.Perm (ne :: rest) s.m_heap)
    (hlow : s.m_lowest ≤ keyMax) (hchild : ∀ p ∈ N.next ne.2, ne.1 < p.1) :
    Dijkstra.work N keyMax (s.expand N ne rest) < Dijkstra.work N keyMax s := by
  have hs : Dijkstra.work N keyMax s =
      weight N (keyMax - ne.1) ne.2 + (rest.map (fun e => weight N (keyMax - e.1) e.2)).sum := by
    unfold Dijkstra.work
    rw [← (hperm.map _).sum_eq]
    simp
  have he : Dijkstra.work N keyMax (s.expand N ne rest) =
      (rest.map (fun e => weight N (keyMax - e.1) e.2)).sum +
      ((keptSuccessors N s.m_lowest (N.next ne.2)).map
        (fun e => weight N (keyMax - e.1) e.2)).sum := by
    unfold Dijkstra.work
    rw [expand_heap_eq]
    simp
  rw [hs, he]
  cases hd : keyMax - ne.1 with
  | zero =>
    have hnil : keptSuccessors N s.m_lowest (N.next ne.2) = [] := by
      apply kept_nil
      intro p hp
      have := hchild p hp
      omega
    rw [hnil]
    have := weight_pos N 0 ne.2
    simp only [List.map_nil, List.sum_nil]
    omega
  | succ d =>
    have := kept_weight N keyMax ne.1 d hd (N.next ne.2) s.m_lowest hlow hchild
    simp only [weight]
    omega

theorem terminates_from_state (N : DijkstraNode T) (keyMax : Nat) (start : T) (k : Nat)
    (hstart : ∀ p ∈ N.next start, k < p.1)
    (hstrict : ∀ c n, Reach N start c n → ∀ p ∈ N.next n, c < p.1) :
    ∀ (fuel : Nat) (s : Dijkstra T), Sourced N start k s → s.m_lowest ≤ keyMax →
      Dijkstra.work N keyMax s < fuel → ∃ r, Dijkstra.solve N fuel s = some r := by
  intro fuel
  induction fuel with
  | zero => intro s _ _ h; exact absurd h (Nat.not_lt_zero _)
  | succ fuel ih =>
    intro s hs hlow hw
    simp only [Dijkstra.solve]
    cases hq : extractTop heap_t.lt s.m_heap with
    | none => exact ⟨_, rfl⟩
    | some q =>
      obtain ⟨ne, rest⟩ := q
      have hperm := extractTop_perm _ _ _ _ hq
      have hne : ne ∈ s.m_heap := hperm.subset (List.mem_cons_self _ _)
      have hchild : ∀ p ∈ N.next ne.2, ne.1 < p.1 := by
        rcases hs ne hne with h | h
        · rw [h]; exact hstart
        · exact hstrict _ _ h
      have hlt := work_expand_lt N keyMax s ne rest hperm hlow hchild
      have hlow' : (s.expand N ne rest).m_lowest ≤ keyMax :=
        Nat.le_trans (foldl_visit_lowest_le N _ _) hlow
      exact ih _ (sourced_expand N start k s ne rest hperm hs) hlow' (by omega)

/-! ## Runs without ties, state by state -/

/-- Without a tie for the lowest cost an iteration of any implementation of
the priority queue leads to the state the executable iteration leads to. -/
theorem iter_equiv (N : DijkstraNode T) (s s1 t : Dijkstra T) (ne : Nat × T)
    (rest : List (Nat × T)) (hi : Iter N s s1) (heq : Dijkstra.Equiv s t)
    (hpt : List.Perm (ne :: rest) t.m_heap) (htie : ∀ x ∈ rest, ne.1 < x.1) :
    Dijkstra.Equiv s1 (t.expand N ne rest) := by
  obtain ⟨h1, h2, h3⟩ := heq
  obtain ⟨ne', rest', hperm, hmin, rfl⟩ := hi
  have hall : List.Perm (ne' :: rest') (ne :: rest) := (hperm.trans h3).trans hpt.symm
  have hne : ne' = ne := by
    rcases List.mem_cons.1 (hall.subset (List.mem_cons_self _ _)) with h | h
    · exact h
    · have hlt := htie ne' h
      have hmem : ne ∈ s.m_heap := (hpt.trans h3.symm).subset (List.mem_cons_self _ _)
      have := hmin ne hmem
      simp only [heap_t.lt, decide_eq_false_iff_not] at this
      omega
  subst hne
  exact foldl_visit_equiv N _ _ _ ⟨h1, h2, List.Perm.cons_inv hall⟩

theorem run_states (N : DijkstraNode T) :
    ∀ (fuel : Nat) (s t : Dijkstra T), Dijkstra.noTies N fuel t = true →
      Dijkstra.Equiv s t → ∀ s', Run N s s' →
      ∃ t' ∈ Dijkstra.states N fuel t, Dijkstra.Equiv s' t' := by
  intro fuel
  induction fuel with
  | zero => intro s t h; simp [Dijkstra.noTies] at h
  | succ fuel ih =>
    intro s t hnt heq s' hrun
    simp only [Dijkstra.noTies] at hnt
    simp only [Dijkstra.states]
    cases hrun with
    | refl => exact ⟨t, List.mem_cons_self _ _, heq⟩
    | step hi hrun' =>
      cases hx : extractTop heap_t.lt t.m_heap with
      | none =>
        have ht : t.m_heap = [] := (extractTop_eq_none _ _).1 hx
        obtain ⟨ne, rest, hperm, _, _⟩ := hi
        have h3 := heq.2.2
        rw [ht] at h3
        rw [List.Perm.eq_nil h3] at hperm
        exact absurd (List.Perm.eq_nil hperm) (List.cons_ne_nil _ _)
      | some q =>
        obtain ⟨ne, rest⟩ := q
        rw [hx] at hnt
        simp only [Bool.and_eq_true, List.all_eq_true, decide_eq_true_eq] at hnt
        obtain ⟨htie, hnt'⟩ := hnt
        have hpt : List.Perm (ne :: rest) t.m_heap := extractTop_perm _ _ _ _ hx
        have hequiv := iter_equiv N s _ t ne rest hi heq hpt htie
        obtain ⟨t', ht', he'⟩ := ih _ _ hnt' hequiv s' hrun'
        exact ⟨t', List.mem_cons_of_mem _ ht', he'⟩

/-! ## The claims about the behaviour of `solve` -/

/-- C16: successor dispatch. A visited successor whose cost is at most
`m_lowest` (equal cost included) and whose node is not completed is pushed: the
queue receives exactly the entry with that cost and node. A completed successor
is never pushed. Hence after the first iteration, in which the start entry
leaves the queue, no queued node is completed. -/
theorem visit_dispatch (N : DijkstraNode T) (keyMax : Nat) (start : T) (k : Nat) :
    (∀ (s : Dijkstra T) (n : Nat × T), n.1 ≤ s.m_lowest → N.completed n.2 = false →
      s.visit N n = s.push n.1 n.2 ∧ (s.visit N n).m_heap = s.m_heap ++ [(n.1, n.2)]) ∧
    (∀ (s : Dijkstra T) (n : Nat × T), N.completed n.2 = true →
      (s.visit N n).m_heap = s.m_heap) ∧
    (∀ s : Dijkstra T, Run N (Dijkstra.init N keyMax start k) s →
      s = Dijkstra.init N keyMax start k ∨ ∀ e ∈ s.m_heap, N.completed e.2 = false) := by
  refine ⟨?_, ?_, run_open N keyMax start k⟩
  · intro s n hle hc
    rcases visit_cases N s n with ⟨_, h | h⟩ | ⟨_, hc', _⟩ | ⟨hv, _, _⟩
    · omega
    · rw [hc] at h; cases h.1
    · rw [hc] at hc'; cases hc'
    · rw [hv]; exact ⟨rfl, rfl⟩
  · intro s n hc
    rcases visit_cases N s n with ⟨hv, _⟩ | ⟨hv, _⟩ | ⟨_, hc', _⟩
    · rw [hv]
    · rw [hv]
    · rw [hc] at hc'; cases hc'

/-- Witness of C16 on `tinyNode`: with `m_lowest` 4 the successor `(4, 1)`, not
completed, is pushed; the goal `(3, 3)` is not. -/
theorem visit_dispatch_witness :
    (({ m_lowest := 4, m_winner := 3, m_heap := [(1, 2)] } : Dijkstra Nat).visit tinyNode
        (4, 1)).m_heap = [(1, 2)] ++ [(4, 1)] ∧
    (({ m_lowest := 4, m_winner := 3, m_heap := [(1, 2)] } : Dijkstra Nat).visit tinyNode
        (3, 3)).m_heap = [(1, 2)] :=
  ⟨((visit_dispatch tinyNode 10 0 0).1 { m_lowest := 4, m_winner := 3, m_heap := [(1, 2)] }
      (4, 1) (by decide) (by decide)).2,
    (visit_dispatch tinyNode 10 0 0).2.1 { m_lowest := 4, m_winner := 3, m_heap := [(1, 2)] }
      (3, 3) (by decide)⟩

/-- C17: non-termination without progress. For the node type `stuckNode`, never
completed and with one successor of the same cost, `solve` does not return
within any number of iterations, and the queue is not empty in any state the
loop reaches: the search has no cycle detection. -/
theorem stuck_never_returns (keyMax fuel : Nat) :
    Dijkstra.solve stuckNode fuel (Dijkstra.init stuckNode keyMax () 0) = none ∧
    (∀ s : Dijkstra Unit, Run stuckNode (Dijkstra.init stuckNode keyMax () 0) s →
      s.m_heap ≠ []) ∧
    (∀ p ∈ stuckNode.next (), p.1 = 0 ∧ stuckNode.completed p.2 = false) := by
  refine ⟨?_, ?_, ?_⟩
  · induction fuel with
    | zero => rfl
    | succ fuel ih =>
      have hx : extractTop heap_t.lt (Dijkstra.init stuckNode keyMax () 0).m_heap =
          some ((0, ()), []) := rfl
      simp only [Dijkstra.solve, hx, stuck_expand]
      exact ih
  · intro s hs
    rw [stuck_run keyMax s hs]
    simp [Dijkstra.init, Dijkstra.push]
  · intro p hp
    simp only [stuckNode, List.mem_singleton] at hp
    rw [hp]
    exact ⟨rfl, rfl⟩

/-- C18: entry lifecycle. An iteration that takes the entry `ne` and leaves
`rest` ends with the queue `rest` followed by the kept successors of `ne`. The
top entry is expanded whatever its cost: `next()` is called on it and the
iteration goes on with its successors. When `solve` has returned, the expanded
entries are exactly the start entry and the pushed entries, `next()` was called
once for each of them, and there were as many pops as pushes (the push of the
constructor included). -/
theorem iteration_lifecycle (N : DijkstraNode T) (keyMax : Nat) (start : T) (k : Nat) :
    (∀ (s : Dijkstra T) (ne : Nat × T) (rest : List (Nat × T)),
      (s.expand N ne rest).m_heap = rest ++ keptSuccessors N s.m_lowest (N.next ne.2)) ∧
    (∀ (fuel : Nat) (s : Dijkstra T) (ne : Nat × T) (rest : List (Nat × T)),
      extractTop heap_t.lt s.m_heap = some (ne, rest) →
      List.Perm (ne :: rest) s.m_heap ∧
      Dijkstra.solve N (fuel + 1) s = Dijkstra.solve N fuel (s.expand N ne rest) ∧
      Dijkstra.expanded N (fuel + 1) s = ne :: Dijkstra.expanded N fuel (s.expand N ne rest) ∧
      Dijkstra.generated N (fuel + 1) s =
        N.next ne.2 ++ Dijkstra.generated N fuel (s.expand N ne rest)) ∧
    (∀ (fuel : Nat) (r : Nat × T),
      Dijkstra.solve N fuel (Dijkstra.init N keyMax start k) = some r →
      List.Perm (Dijkstra.expanded N fuel (Dijkstra.init N keyMax start k))
        ((k, start) :: Dijkstra.pushed N fuel (Dijkstra.init N keyMax start k)) ∧
      Dijkstra.generated N fuel (Dijkstra.init N keyMax start k) =
        (Dijkstra.expanded N fuel (Dijkstra.init N keyMax start k)).flatMap
          (fun e => N.next e.2) ∧
      (Dijkstra.expanded N fuel (Dijkstra.init N keyMax start k)).length =
        (Dijkstra.pushed N fuel (Dijkstra.init N keyMax start k)).length + 1) := by
  refine ⟨expand_heap_eq N, ?_, ?_⟩
  · intro fuel s ne rest hx
    refine ⟨extractTop_perm _ _ _ _ hx, ?_, ?_, ?_⟩
    · simp [Dijkstra.solve, hx]
    · simp [Dijkstra.expanded, hx]
    · simp [Dijkstra.generated, hx]
  · intro fuel r h
    obtain ⟨h1, h2⟩ := solve_log N fuel _ r h
    have h1' : List.Perm (Dijkstra.expanded N fuel (Dijkstra.init N keyMax start k))
        ((k, start) :: Dijkstra.pushed N fuel (Dijkstra.init N keyMax start k)) := h1
    refine ⟨h1', h2, ?_⟩
    rw [h1'.length_eq, List.length_cons]

/-- Witness of C18 on the sample: the ten expanded entries, by cost, are the
start entry and the nine pushed ones; the entries of cost 583 and 624 are
expanded although the lowest cost is 565 by then. -/
theorem iteration_lifecycle_witness :
    (Dijkstra.expanded sampleNode 11
        (Dijkstra.init sampleNode uint32Max Node.default 0)).map (fun e => e.1) =
      [0, 140, 273, 310, 348, 413, 546, 557, 583, 624] ∧
    (Dijkstra.expanded sampleNode 11
        (Dijkstra.init sampleNode uint32Max Node.default 0)).length =
      (Dijkstra.pushed sampleNode 11
        (Dijkstra.init sampleNode uint32Max Node.default 0)).length + 1 :=
  ⟨by decide,
    ((iteration_lifecycle sampleNode uint32Max Node.default 0).2.2 11
      (565, { last := "Bremen", route := ["Mannheim", "Essen"], costs := 565 })
      (by decide)).2.2⟩

/-- C20: pairing of winner and cost. In every state the loop of `solve`
reaches, in every state in between while the successors of a queued entry are
visited, and in the result of `solve`, either `m_lowest` is the maximum of `Key`
and `m_winner` the default node, or `m_winner` is a completed successor that the
search generated with cost `m_lowest`, which is below the maximum. A successor
whose cost is the maximum of `Key` is never recorded. -/
theorem winner_paired (N : DijkstraNode T) (keyMax : Nat) (start : T) (k : Nat) :
    (∀ s : Dijkstra T, Run N (Dijkstra.init N keyMax start k) s → Paired N keyMax start s) ∧
    (∀ (s : Dijkstra T) (ne : Nat × T) (rest l1 l2 : List (Nat × T)),
      Run N (Dijkstra.init N keyMax start k) s → ne ∈ s.m_heap → N.next ne.2 = l1 ++ l2 →
      Paired N keyMax start (l1.foldl (Dijkstra.visit N) { s with m_heap := rest })) ∧
    (∀ (fuel c : Nat) (w : T),
      Dijkstra.solve N fuel (Dijkstra.init N keyMax start k) = some (c, w) →
      (c = keyMax ∧ w = N.dflt) ∨
        (c < keyMax ∧ Desc N start c w ∧ N.completed w = true)) ∧
    (∀ (s : Dijkstra T) (n : Nat × T), s.m_lowest ≤ keyMax → n.1 = keyMax →
      (s.visit N n).m_lowest = s.m_lowest ∧ (s.visit N n).m_winner = s.m_winner) := by
  have hrun : ∀ s : Dijkstra T, Run N (Dijkstra.init N keyMax start k) s →
      Inv N keyMax start s :=
    fun s h => inv_run N keyMax start _ s h (inv_init N keyMax start k)
  refine ⟨fun s h => (hrun s h).att, ?_, ?_, ?_⟩
  · intro s ne rest l1 l2 h hne hl
    exact paired_prefix N keyMax start s (hrun s h) ne hne rest l1 l2 hl
  · intro fuel c w h
    obtain ⟨s', hr, _, hres⟩ := solve_run N fuel _ _ h
    have hc : c = s'.m_lowest := congrArg Prod.fst hres
    have hw : w = s'.m_winner := congrArg Prod.snd hres
    rw [hc, hw]
    exact (hrun s' hr).att
  · intro s n hle hn
    rcases visit_cases N s n with ⟨hv, _⟩ | ⟨_, _, hlt⟩ | ⟨hv, _, _⟩
    · rw [hv]; exact ⟨rfl, rfl⟩
    · omega
    · rw [hv]; exact ⟨rfl, rfl⟩

/-- Witness of C20 on `tinyNode`: with `Key` maximum 5 the goal of cost 5 below
node `1` is not recorded, and the result of the search from node `0` with
maximum 10 is the generated goal `3` with its cost 3. -/
theorem winner_paired_witness :
    ((({ m_lowest := 5, m_winner := 0, m_heap := [] } : Dijkstra Nat).visit tinyNode
        (5, 3)).m_winner = 0) ∧
    ((3 = 10 ∧ 3 = tinyNode.dflt) ∨
      (3 < 10 ∧ Desc tinyNode 0 3 3 ∧ tinyNode.completed 3 = true)) :=
  ⟨((winner_paired tinyNode 5 0 0).2.2.2 { m_lowest := 5, m_winner := 0, m_heap := [] }
      (5, 3) (by decide) rfl).2,
    (winner_paired tinyNode 10 0 0).2.2.1 4 3 3 (by decide)⟩

/-! ## The node type on a ring -/

theorem ring_reach {c : Nat} {n : Nat × Nat} (h : Reach ringNode (0, 0) c n) : n.2 = c := by
  cases h with
  | first h1 =>
    simp only [ringNode, List.mem_cons, Prod.mk.injEq, List.mem_singleton] at h1
    rcases h1 with ⟨rfl, rfl⟩ | ⟨rfl, rfl⟩ | h1
    · rfl
    · rfl
    · cases h1
  | step _ h1 =>
    simp only [ringNode, List.mem_cons, Prod.mk.injEq, List.mem_singleton] at h1
    rcases h1 with ⟨rfl, rfl⟩ | ⟨rfl, rfl⟩ | h1
    · rfl
    · rfl
    · cases h1

theorem ring_strict (c : Nat) (n : Nat × Nat) (h : Reach ringNode (0, 0) c n) :
    ∀ p ∈ ringNode.next n, c < p.1 := by
  have hc := ring_reach h
  intro p hp
  simp only [ringNode, List.mem_cons, List.mem_singleton] at hp
  rcases hp with rfl | rfl | hp
  · simp only; omega
  · simp only; omega
  · cases hp

/-! ## The claims about termination, order and capacity -/

/-- C14: termination under pruning. If every successor costs strictly more
than the node it was expanded from (the successors of the start node more than
the start cost), `solve` returns: the tree of expansions between the start cost
and the maximum of `Key` bounds the number of iterations, and with any
implementation of the priority queue every iteration lowers that bound. That a
goal is reachable is not needed, since costs above the maximum of `Key` are
pruned from the start. -/
theorem solve_terminates (N : DijkstraNode T) (keyMax : Nat) (start : T) (k : Nat)
    (hstart : ∀ p ∈ N.next start, k < p.1)
    (hstrict : ∀ c n, Reach N start c n → ∀ p ∈ N.next n, c < p.1) :
    (∀ fuel : Nat, weight N (keyMax - k) start < fuel →
      ∃ r, Dijkstra.solve N fuel (Dijkstra.init N keyMax start k) = some r) ∧
    (∀ s s' : Dijkstra T, Run N (Dijkstra.init N keyMax start k) s → Iter N s s' →
      Dijkstra.work N keyMax s' < Dijkstra.work N keyMax s) := by
  refine ⟨?_, ?_⟩
  · intro fuel hf
    refine terminates_from_state N keyMax start k hstart hstrict fuel _
      (sourced_init N keyMax start k) (Nat.le_refl _) ?_
    simpa [Dijkstra.work, Dijkstra.init, Dijkstra.push] using hf
  · intro s s' hrun hi
    have hs := sourced_run N start k _ s hrun (sourced_init N keyMax start k)
    have hlow : s.m_lowest ≤ keyMax := run_lowest_le N _ s hrun
    obtain ⟨ne, rest, hperm, _, rfl⟩ := hi
    have hne : ne ∈ s.m_heap := hperm.subset (List.mem_cons_self _ _)
    have hchild : ∀ p ∈ N.next ne.2, ne.1 < p.1 := by
      rcases hs ne hne with h | h
      · rw [h]; exact hstart
      · exact hstrict _ _ h
    exact work_expand_lt N keyMax s ne rest hperm hlow hchild

/-- Witness of C14 on `ringNode`, whose places form a cycle: started at place 0
with cost 0 and `Key` maximum 10, `solve` returns; it does so after two
iterations, with the goal at place 2 and cost 2. -/
theorem solve_terminates_witness :
    (∃ r, Dijkstra.solve ringNode (weight ringNode (10 - 0) (0, 0) + 1)
      (Dijkstra.init ringNode 10 (0, 0) 0) = some r) ∧
    Dijkstra.solve ringNode 3 (Dijkstra.init ringNode 10 (0, 0) 0) = some (2, (2, 2)) :=
  ⟨(solve_terminates ringNode 10 (0, 0) 0 (by decide) ring_strict).1 _ (Nat.lt_succ_self _),
    by decide⟩

/-- C15: best-first order. If no successor costs less than the node it was
expanded from (the successors of the start node not less than the start cost),
the entries that `solve` expands come in non-decreasing order of cost; with any
implementation of the priority queue, after an iteration every queued entry
costs at least as much as the entry just expanded. -/
theorem expanded_sorted (N : DijkstraNode T) (keyMax : Nat) (start : T) (k : Nat)
    (hstart : ∀ p ∈ N.next start, k ≤ p.1)
    (hmono : ∀ c n, Reach N start c n → ∀ p ∈ N.next n, c ≤ p.1) :
    (∀ fuel : Nat, List.Pairwise (fun a b => a.1 ≤ b.1)
      (Dijkstra.expanded N fuel (Dijkstra.init N keyMax start k))) ∧
    (∀ (s : Dijkstra T) (ne : Nat × T) (rest : List (Nat × T)),
      Run N (Dijkstra.init N keyMax start k) s → List.Perm (ne :: rest) s.m_heap →
      (∀ x ∈ s.m_heap, heap_t.lt ne x = false) →
      ∀ e ∈ (s.expand N ne rest).m_heap, ne.1 ≤ e.1) := by
  refine ⟨fun fuel => expanded_pairwise N start k hstart hmono fuel _
    (sourced_init N keyMax start k), ?_⟩
  intro s ne rest hrun hperm hmin
  have hs := sourced_run N start k _ s hrun (sourced_init N keyMax start k)
  have hne : ne ∈ s.m_heap := hperm.subset (List.mem_cons_self _ _)
  have hchild : ∀ p ∈ N.next ne.2, ne.1 ≤ p.1 := by
    rcases hs ne hne with h | h
    · rw [h]; exact hstart
    · exact hmono _ _ h
  refine expand_ge N s ne rest ?_ hchild
  intro x hx
  have := hmin x (hperm.subset (List.mem_cons_of_mem _ hx))
  simp only [heap_t.lt, decide_eq_false_iff_not] at this
  omega

/-- Witness of C15 on `tinyNode`: the entries are expanded with the costs
0, 1, 4. -/
theorem expanded_sorted_witness :
    (Dijkstra.expanded tinyNode 4 (Dijkstra.init tinyNode 10 0 0)).map (fun e => e.1) =
      [0, 1, 4] ∧
    List.Pairwise (fun a b : Nat × Nat => a.1 ≤ b.1)
      (Dijkstra.expanded tinyNode 4 (Dijkstra.init tinyNode 10 0 0)) :=
  ⟨by decide, (expanded_sorted tinyNode 10 0 0 (by decide) tiny_mono).1 4⟩

/-- C19: capacity in the test. In the sample started at Mannheim `solve`
returns within the eleven tests of `m_heap.empty()`, and at every point on the
way (at each test, after `pop()`, after every visited successor) the queue holds
at most 30 entries. No tie occurs, so the same holds with any implementation
of the priority queue, in the states the loop reaches and while the successors
of an entry are visited. -/
theorem sample_capacity :
    (Dijkstra.solve sampleNode 11
      (Dijkstra.init sampleNode uint32Max Node.default 0)).isSome = true ∧
    (∀ n ∈ Dijkstra.heapSizes sampleNode 11
      (Dijkstra.init sampleNode uint32Max Node.default 0), n ≤ 30) ∧
    (∀ s, Run sampleNode (Dijkstra.init sampleNode uint32Max Node.default 0) s →
      s.m_heap.length ≤ 30) ∧
    (∀ (s : Dijkstra Node) (ne : Nat × Node) (rest l1 l2 : List (Nat × Node)),
      Run sampleNode (Dijkstra.init sampleNode uint32Max Node.default 0) s →
      List.Perm (ne :: rest) s.m_heap → (∀ x ∈ s.m_heap, heap_t.lt ne x = false) →
      sampleNode.next ne.2 = l1 ++ l2 →
      (l1.foldl (Dijkstra.visit sampleNode) { s with m_heap := rest }).m_heap.length ≤ 30) := by
  have hnt : Dijkstra.noTies sampleNode 11
      (Dijkstra.init sampleNode uint32Max Node.default 0) = true := by decide
  have hstates : ∀ t ∈ Dijkstra.states sampleNode 11
      (Dijkstra.init sampleNode uint32Max Node.default 0), t.m_heap.length ≤ 30 := by
    decide
  have hrun : ∀ s, Run sampleNode (Dijkstra.init sampleNode uint32Max Node.default 0) s →
      s.m_heap.length ≤ 30 := by
    intro s hs
    obtain ⟨t, ht, he⟩ := run_states sampleNode 11 _ _ hnt ⟨rfl, rfl, List.Perm.refl _⟩ s hs
    rw [he.2.2.length_eq]
    exact hstates t ht
  refine ⟨by decide, by decide, hrun, ?_⟩
  intro s ne rest l1 l2 hs hperm hmin hl
  have hfull := hrun _ (run_snoc sampleNode hs ⟨ne, rest, hperm, hmin, rfl⟩)
  have hle : (l1.foldl (Dijkstra.visit sampleNode) { s with m_heap := rest }).m_heap.length ≤
      (s.expand sampleNode ne rest).m_heap.length := by
    unfold Dijkstra.expand
    rw [hl, List.foldl_append, foldl_visit_heap_eq sampleNode l2]
    simp
  omega

/-! ## Independence of the tie-break -/

/-- Two finished runs of the loop end with the same `m_lowest`, when no
successor of a generated node costs less than that node. -/
theorem finished_lowest_eq (N : DijkstraNode T) (keyMax : Nat) (start : T) (k : Nat)
    (hmono : ∀ c1 m, Desc N start c1 m → N.completed m = false →
      ∀ p ∈ N.next m, c1 ≤ p.1)
    (s1 s2 : Dijkstra T) (h1 : Run N (Dijkstra.init N keyMax start k) s1)
    (e1 : s1.m_heap = []) (h2 : Run N (Dijkstra.init N keyMax start k) s2)
    (e2 : s2.m_heap = []) : s1.m_lowest = s2.m_lowest := by
  have i1 := inv_run N keyMax start _ s1 h1 (inv_init N keyMax start k)
  have i2 := inv_run N keyMax start _ s2 h2 (inv_init N keyMax start k)
  have c1 := cover_run N keyMax start hmono _ s1 h1 (inv_init N keyMax start k)
    (cover_init N keyMax start k)
  have c2 := cover_run N keyMax start hmono _ s2 h2 (inv_init N keyMax start k)
    (cover_init N keyMax start k)
  have low : ∀ (a b : Dijkstra T), Cover N start a → a.m_heap = [] →
      Desc N start b.m_lowest b.m_winner → N.completed b.m_winner = true →
      a.m_lowest ≤ b.m_lowest := by
    intro a b ca ea hd hc
    rcases ca _ _ hd hc with h | ⟨e, he, _⟩
    · exact h
    · rw [ea] at he; cases he
  rcases i1.att with ⟨a1, _⟩ | ⟨a1, d1, g1⟩
  · rcases i2.att with ⟨a2, _⟩ | ⟨a2, d2, g2⟩
    · rw [a1, a2]
    · have := low s1 s2 c1 e1 d2 g2
      omega
  · rcases i2.att with ⟨a2, _⟩ | ⟨_, d2, g2⟩
    · have := low s2 s1 c2 e2 d1 g1
      omega
    · have h12 := low s1 s2 c1 e1 d2 g2
      have h21 := low s2 s1 c2 e2 d1 g1
      omega

theorem tie_reach {c n : Nat} (h : Reach tieNode 0 c n) :
    (c, n) ∈ [(1, 1), (1, 2), (2, 3), (2, 4)] := by
  induction h with
  | first h1 =>
    simp only [tieNode, List.mem_cons, Prod.mk.injEq, List.mem_singleton] at h1
    rcases h1 with ⟨rfl, rfl⟩ | ⟨rfl, rfl⟩ | h1
    · decide
    · decide
    · cases h1
  | step _ h1 ih =>
    simp only [List.mem_cons, Prod.mk.injEq, List.mem_singleton] at ih
    rcases ih with ⟨rfl, rfl⟩ | ⟨rfl, rfl⟩ | ⟨rfl, rfl⟩ | ⟨rfl, rfl⟩ | ih
    · simp only [tieNode, List.mem_singleton, Prod.mk.injEq] at h1
      obtain ⟨rfl, rfl⟩ := h1
      decide
    · simp only [tieNode, List.mem_singleton, Prod.mk.injEq] at h1
      obtain ⟨rfl, rfl⟩ := h1
      decide
    · simp [tieNode] at h1
    · simp [tieNode] at h1
    · cases ih

theorem tie_mono (c n : Nat) (h : Reach tieNode 0 c n) :
    ∀ p ∈ tieNode.next n, c ≤ p.1 := by
  have h' := tie_reach h
  simp only [List.mem_cons, Prod.mk.injEq, List.mem_singleton] at h'
  rcases h' with ⟨rfl, rfl⟩ | ⟨rfl, rfl⟩ | ⟨rfl, rfl⟩ | ⟨rfl, rfl⟩ | h'
  · decide
  · decide
  · decide
  · decide
  · cases h'

/-- On `tieNode` the priority queue may expand node `2` before node `1`; the
run then ends with the goal `4` as winner. -/
theorem tie_other_run :
    Run tieNode (Dijkstra.init tieNode 10 0 0) { m_lowest := 2, m_winner := 4, m_heap := [] } := by
  have i1 : Iter tieNode (Dijkstra.init tieNode 10 0 0)
      { m_lowest := 10, m_winner := 0, m_heap := [(1, 1), (1, 2)] } :=
    ⟨(0, 0), [], List.Perm.refl _, by decide, rfl⟩
  have i2 : Iter tieNode { m_lowest := 10, m_winner := 0, m_heap := [(1, 1), (1, 2)] }
      { m_lowest := 2, m_winner := 4, m_heap := [(1, 1)] } :=
    ⟨(1, 2), [(1, 1)], List.Perm.swap _ _ _, by decide, rfl⟩
  have i3 : Iter tieNode { m_lowest := 2, m_winner := 4, m_heap := [(1, 1)] }
      { m_lowest := 2, m_winner := 4, m_heap := [] } :=
    ⟨(1, 1), [], List.Perm.refl _, by decide, rfl⟩
  exact Run.step i1 (Run.step i2 (Run.step i3 (Run.refl _)))

/-! ## The claims about tie-breaks and about costs that decrease -/

/-- C21: independence of the tie-break. If no successor costs less than the
node it was expanded from, any two finished runs of the loop of `solve`, in
which the priority queue may choose differently among the entries of lowest
cost, end with the same cost; in particular every finished run ends with the
cost that `solve` returns. -/
theorem tie_break_independent (N : DijkstraNode T) (keyMax : Nat) (start : T) (k : Nat)
    (hmono : ∀ c n, Reach N start c n → ∀ p ∈ N.next n, c ≤ p.1) :
    (∀ s1 s2 : Dijkstra T, Run N (Dijkstra.init N keyMax start k) s1 → s1.m_heap = [] →
      Run N (Dijkstra.init N keyMax start k) s2 → s2.m_heap = [] →
      s1.m_lowest = s2.m_lowest) ∧
    (∀ (fuel c : Nat) (w : T) (s' : Dijkstra T),
      Dijkstra.solve N fuel (Dijkstra.init N keyMax start k) = some (c, w) →
      Run N (Dijkstra.init N keyMax start k) s' → s'.m_heap = [] → s'.m_lowest = c) := by
  have hmono' : ∀ c1 m, Desc N start c1 m → N.completed m = false →
      ∀ p ∈ N.next m, c1 ≤ p.1 :=
    fun c1 m hd _ p hp => hmono c1 m (Desc.reach_start N hd) p hp
  refine ⟨fun s1 s2 h1 e1 h2 e2 =>
    finished_lowest_eq N keyMax start k hmono' s1 s2 h1 e1 h2 e2, ?_⟩
  intro fuel c w s' hsolve hrun hempty
  obtain ⟨t, ht, hte, hres⟩ := solve_run N fuel _ _ hsolve
  have hc : c = t.m_lowest := congrArg Prod.fst hres
  rw [hc]
  exact finished_lowest_eq N keyMax start k hmono' s' t hrun hempty ht hte

/-- Witness of C21 on `tieNode`: `solve` expands node `1` first and returns the
goal `3`; the run that expands node `2` first ends with the goal `4`; the cost
is 2 both times. -/
theorem tie_break_independent_witness :
    Dijkstra.solve tieNode 4 (Dijkstra.init tieNode 10 0 0) = some (2, 3) ∧
    Run tieNode (Dijkstra.init tieNode 10 0 0) { m_lowest := 2, m_winner := 4, m_heap := [] } ∧
    ({ m_lowest := 2, m_winner := 4, m_heap := [] } : Dijkstra Nat).m_lowest = 2 :=
  ⟨by decide, tie_other_run,
    (tie_break_independent tieNode 10 0 0 tie_mono).2 4 2 3
      { m_lowest := 2, m_winner := 4, m_heap := [] } (by decide) tie_other_run rfl⟩

/-- C22: optimality needs costs that never decrease. On `dipNode` the successor
`(3, 3)` of the reachable node `(10, 2)` costs less than that node. `solve`
returns after one iteration with cost 5 and the goal `1`, and so does every
implementation of the priority queue; yet the goal `3` is reachable with cost
3, the lowest cost of a reachable goal. -/
theorem nonmonotone_not_optimal :
    (Reach dipNode 0 10 2 ∧ (3, 3) ∈ dipNode.next 2 ∧ 3 < 10) ∧
    dipNode.next 0 = [(5, 1), (10, 2)] ∧
    (dipNode.completed 1 = true ∧ dipNode.completed 2 = false ∧ dipNode.completed 3 = true) ∧
    Dijkstra.solve dipNode 2 (Dijkstra.init dipNode uint32Max 0 0) = some (5, 1) ∧
    (∀ s', Run dipNode (Dijkstra.init dipNode uint32Max 0 0) s' → s'.m_heap = [] →
      s'.m_lowest = 5) ∧
    (Reach dipNode 0 3 3 ∧ dipNode.completed 3 = true ∧ 3 < 5) ∧
    (∀ c g, Reach dipNode 0 c g → dipNode.completed g = true → 3 ≤ c) := by
  have h2 : Reach dipNode 0 10 2 := Reach.first (by decide)
  have h3 : Reach dipNode 0 3 3 := Reach.step h2 (by decide)
  have hsolve : Dijkstra.solve dipNode 2 (Dijkstra.init dipNode uint32Max 0 0) =
      some (5, 1) := by decide
  refine ⟨⟨h2, by decide, by decide⟩, rfl, ⟨rfl, rfl, rfl⟩, hsolve, ?_,
    ⟨h3, rfl, by decide⟩, ?_⟩
  · intro s' hrun hempty
    have hnt : Dijkstra.noTies dipNode 2 (Dijkstra.init dipNode uint32Max 0 0) = true := by
      decide
    have h := run_unique dipNode 2 _ _ hnt ⟨rfl, rfl, List.Perm.refl _⟩ s' hrun hempty
    rw [hsolve] at h
    simp only [Option.some.injEq, Prod.mk.injEq] at h
    exact h.1.symm
  · have hall : ∀ c g, Reach dipNode 0 c g → (c, g) ∈ [(5, 1), (10, 2), (3, 3)] := by
      intro c g h
      induction h with
      | first h1 =>
        simp only [dipNode, List.mem_cons, Prod.mk.injEq, List.mem_singleton] at h1
        rcases h1 with ⟨rfl, rfl⟩ | ⟨rfl, rfl⟩ | h1
        · decide
        · decide
        · cases h1
      | step _ h1 ih =>
        simp only [List.mem_cons, Prod.mk.injEq, List.mem_singleton] at ih
        rcases ih with ⟨rfl, rfl⟩ | ⟨rfl, rfl⟩ | ⟨rfl, rfl⟩ | ih
        · simp [dipNode] at h1
        · simp only [dipNode, List.mem_singleton, Prod.mk.injEq] at h1
          obtain ⟨rfl, rfl⟩ := h1
          decide
        · simp [dipNode] at h1
        · cases ih
    intro c g h hg
    have h' := hall c g h
    simp only [List.mem_cons, Prod.mk.injEq, List.mem_singleton] at h'
    rcases h' with ⟨rfl, rfl⟩ | ⟨rfl, rfl⟩ | ⟨rfl, rfl⟩ | h'
    · decide
    · exact absurd hg (by decide)
    · decide
    · cases h'

/-! ## The positions the grid iterator visits -/

/-- When the copy loop returns, every state it passed through pointed at a
cell, one element was appended per state, and the state after them equals the
end sentinel. -/
theorem copyFrom_visited (g : numericGrid) : ∀ (fuel : Nat) (it : numericGrid.Iterator)
    (tmp out : List Nat), numericGrid.copyFrom g fuel it tmp = some out →
    (∀ x ∈ numericGrid.visited g fuel it, x.atEnd = false ∧ (x.deref g).isSome = true) ∧
    out.length = tmp.length + (numericGrid.visited g fuel it).length ∧
    ((numericGrid.Iterator.next g)^[(numericGrid.visited g fuel it).length] it).atEnd = true := by
  intro fuel
  induction fuel with
  | zero => intro it tmp out h; simp [numericGrid.copyFrom] at h
  | succ fuel ih =>
    intro it tmp out h
    rw [numericGrid.copyFrom] at h
    rw [numericGrid.visited]
    cases hend : it.atEnd with
    | true =>
      simp only [hend, if_true, Option.some.injEq] at h
      simp [h, hend]
    | false =>
      simp only [hend, Bool.false_eq_true, if_false] at h ⊢
      cases hd : it.deref g with
      | none => rw [hd] at h; cases h
      | some v =>
        rw [hd] at h
        obtain ⟨h1, h2, h3⟩ := ih _ _ _ h
        refine ⟨?_, ?_, ?_⟩
        · intro x hx
          rcases List.mem_cons.1 hx with rfl | hx
          · exact ⟨hend, by rw [hd]; rfl⟩
          · exact h1 x hx
        · rw [h2]
          simp only [List.length_append, List.length_cons, List.length_nil]
          omega
        · simpa [Function.iterate_succ_apply] using h3

theorem visited_mem_mono (g : numericGrid) (x : numericGrid.Iterator) :
    ∀ (fuel fuel' : Nat) (it : numericGrid.Iterator), fuel ≤ fuel' →
      x ∈ numericGrid.visited g fuel it → x ∈ numericGrid.visited g fuel' it := by
  intro fuel
  induction fuel with
  | zero => intro fuel' it _ h; simp [numericGrid.visited] at h
  | succ fuel ih =>
    intro fuel' it hle h
    obtain ⟨f, rfl⟩ : ∃ f, fuel' = f + 1 := ⟨fuel' - 1, by omega⟩
    rw [numericGrid.visited] at h ⊢
    cases hend : it.atEnd with
    | true => simp [hend] at h
    | false =>
      simp only [hend, Bool.false_eq_true, if_false, List.mem_cons] at h ⊢
      rcases h with h | h
      · exact Or.inl h
      · exact Or.inr (ih f _ (by omega) h)

/-- After the first increment the iterator of the rows 1, empty, 2 stays in
the empty row and moves on beyond its end. -/
theorem blank_row_states (n : Nat) :
    (numericGrid.Iterator.next { m_grid := [[1], [], [2]] })^[n + 1]
      { m_rowsIt := 0, m_rowsEnd := 3, m_cIt := (0, 0), m_cEnd := (0, 1) } =
      { m_rowsIt := 1, m_rowsEnd := 3, m_cIt := (1, n), m_cEnd := (1, 0) } := by
  induction n with
  | zero => rfl
  | succ n ih =>
    rw [Function.iterate_succ_apply', ih]
    simp [numericGrid.Iterator.next]

/-- C23: safety of the grid iterator. For a grid with at least one row and no
empty row, `begin()` is defined, every state the iterator passes through before
it equals the end sentinel points at a cell, and it equals the sentinel after as
many increments as the grid has cells. For the grid read from two digit lines
with a blank line between them, the first increment leads to a state that does
not equal the sentinel and points at no cell, and no later state equals the
sentinel. For the empty grid `begin()` reads a row that does not exist. -/
theorem iterator_safety (g : numericGrid) (hne : g.m_grid ≠ [])
    (hrows : ∀ row ∈ g.m_grid, row ≠ []) :
    (∃ it, g.begin = some it ∧
      (∀ fuel, ∀ x ∈ g.visited fuel it, x.atEnd = false ∧ (x.deref g).isSome = true) ∧
      (∀ fuel, g.m_grid.flatten.length < fuel →
        (g.visited fuel it).length = g.m_grid.flatten.length) ∧
      ((numericGrid.Iterator.next g)^[g.m_grid.flatten.length] it).atEnd = true) ∧
    (∃ (g' : numericGrid) (it : numericGrid.Iterator),
      numericGrid.read [49, 10, 10, 50] { m_grid := [] } = some g' ∧ [] ∈ g'.m_grid ∧
      g'.begin = some it ∧ (it.next g').atEnd = false ∧ (it.next g').deref g' = none ∧
      ∀ n, 1 ≤ n → ((numericGrid.Iterator.next g')^[n] it).atEnd = false) ∧
    (numericGrid.read [] { m_grid := [] } = some { m_grid := [] } ∧
      numericGrid.begin { m_grid := [] } = none) := by
  refine ⟨?_, ?_, by decide, rfl⟩
  · cases hg : g.m_grid with
    | nil => exact absurd hg hne
    | cons row0 rest =>
      have h0 : row0 ≠ [] := hrows row0 (by rw [hg]; exact List.mem_cons_self _ _)
      obtain ⟨v, rp, rfl⟩ : ∃ v rp, row0 = v :: rp := by
        cases row0 with
        | nil => exact absurd rfl h0
        | cons a b => exact ⟨a, b, rfl⟩
      have hrest : ∀ row ∈ rest, row ≠ [] :=
        fun row hr => hrows row (by rw [hg]; exact List.mem_cons_of_mem _ hr)
      have hcopy : ∀ fuel, ((v :: rp) :: rest).flatten.length < fuel →
          numericGrid.copyFrom g fuel
            { m_rowsIt := 0, m_rowsEnd := ((v :: rp) :: rest).length, m_cIt := (0, 0),
              m_cEnd := (0, (v :: rp).length) } [] =
            some ((v :: rp) :: rest).flatten := by
        intro fuel hf
        have hf' : (v :: rp ++ rest.flatten).length < fuel := by simpa using hf
        have := copyFrom_at g fuel [] [] v rp rest [] hrest (by rw [hg]; rfl) hf'
        simpa [hg] using this
      have hlen : ∀ fuel, ((v :: rp) :: rest).flatten.length < fuel →
          (g.visited fuel
            { m_rowsIt := 0, m_rowsEnd := ((v :: rp) :: rest).length, m_cIt := (0, 0),
              m_cEnd := (0, (v :: rp).length) }).length =
            ((v :: rp) :: rest).flatten.length := by
        intro fuel hf
        have := (copyFrom_visited g fuel _ _ _ (hcopy fuel hf)).2.1
        simp only [List.length_nil, Nat.zero_add] at this
        exact this.symm
      refine ⟨{ m_rowsIt := 0, m_rowsEnd := ((v :: rp) :: rest).length, m_cIt := (0, 0),
                m_cEnd := (0, (v :: rp).length) }, ?_, ?_, hlen, ?_⟩
      · simp [numericGrid.begin, hg]
      · intro fuel x hx
        have hx' := visited_mem_mono g x fuel
          (fuel + ((v :: rp) :: rest).flatten.length + 1) _ (by omega) hx
        exact (copyFrom_visited g _ _ _ _ (hcopy _ (by omega))).1 x hx'
      · have h3 := (copyFrom_visited g _ _ _ _
          (hcopy (((v :: rp) :: rest).flatten.length + 1) (Nat.lt_succ_self _))).2.2
        rw [hlen _ (Nat.lt_succ_self _)] at h3
        exact h3
  · refine ⟨{ m_grid := [[1], [], [2]] },
      { m_rowsIt := 0, m_rowsEnd := 3, m_cIt := (0, 0), m_cEnd := (0, 1) },
      by decide, by decide, rfl, by decide, by decide, ?_⟩
    intro n hn
    obtain ⟨m, rfl⟩ : ∃ m, n = m + 1 := ⟨n - 1, by omega⟩
    rw [blank_row_states]
    rfl

/-- Witness of C23 on the rows 1 2 3 and 4 5, of different lengths: the five
states from `begin()` on point at cells and the sixth equals the sentinel. -/
theorem iterator_safety_witness :
    ∃ it, numericGrid.begin { m_grid := [[1, 2, 3], [4, 5]] } = some it ∧
      (∀ fuel, ∀ x ∈ numericGrid.visited { m_grid := [[1, 2, 3], [4, 5]] } fuel it,
        x.atEnd = false ∧
        (x.deref { m_grid := [[1, 2, 3], [4, 5]] }).isSome = true) ∧
      (∀ fuel, [[1, 2, 3], [4, 5]].flatten.length < fuel →
        (numericGrid.visited { m_grid := [[1, 2, 3], [4, 5]] } fuel it).length =
          [[1, 2, 3], [4, 5]].flatten.length) ∧
      ((numericGrid.Iterator.next { m_grid := [[1, 2, 3], [4, 5]] })^[
        [[1, 2, 3], [4, 5]].flatten.length] it).atEnd = true :=
  (iterator_safety { m_grid := [[1, 2, 3], [4, 5]] } (by decide) (by decide)).1

end AoC
